import Mathlib

/-!
Verification development for the chat-with-docs retrieval pipeline.

Shallow embedding conventions:
* Text is modelled as `List Char` (`Str`).  JavaScript string `.length`,
  `+`, `.trim()`, `.split(' ')` become list length, append, `trimL`,
  `splitOnSpace`.  JS `trim` removes Unicode whitespace; the model trims
  the ASCII whitespace recognised by `Char.isWhitespace`, which agrees on
  all inputs built from ASCII text.
* Numbers flowing through the embedding pipeline are modelled as `ℚ`.
  The cosine-similarity value `dot / (Math.sqrt(normA) * Math.sqrt(normB))`
  is an irrational real in general, so a similarity is represented by the
  rational key `k = s·|s|` of the real similarity `s` (the map `x ↦ x·|x|`
  is strictly increasing, so every comparison performed on similarities —
  the `>= RETRIEVAL_THRESHOLD` filter and the sort comparator — is
  faithfully mirrored on keys).  `Score.nan` represents the IEEE NaN
  produced by the unguarded `0/0` when a vector has zero norm.
* `NaN >= t` is `false` in JavaScript for every `t`; `Score.geRat` models
  this.  The behaviour of `Array.prototype.sort` when the comparator
  returns NaN is implementation-defined by ECMA-262; the model adopts the
  reading that a NaN comparison result acts as a tie (comparator result 0),
  i.e. `Score.key Score.nan = 0`.
* `Array.prototype.sort` is a stable sort; stability is expressed by
  sorting with the comparator extended by the source index carried in each
  scored record (the code itself tags every record with `index`).
-/

/-- Text as a list of characters. -/
abbrev Str := List Char

/-- The sentence-terminator class `[.!?]` of the chunker's regex. -/
def sentTerm (c : Char) : Bool := c = '.' || c = '!' || c = '?'

/-- Whitespace for the model of JavaScript `String.prototype.trim`. -/
def isWsChar (c : Char) : Bool := c.isWhitespace

/-- Model of JavaScript `s.trim()`: strip whitespace from both ends. -/
def trimL (s : Str) : Str :=
  ((s.dropWhile isWsChar).reverse.dropWhile isWsChar).reverse

/-- One character of the model of JavaScript `s.split(' ')`, processed
from the right: a space starts a fresh empty segment, any other character
is prepended to the current first segment. -/
def spaceSplitStep (c : Char) (acc : List Str) : List Str :=
  match acc with
  | [] => [[c]]
  | w :: ws => if c = ' ' then [] :: w :: ws else (c :: w) :: ws

/-- Model of JavaScript `s.split(' ')`: split at every single space
character, keeping empty segments (`"a  b" ↦ ["a","","b"]`, `"" ↦ [""]`). -/
def splitOnSpace (s : Str) : List Str :=
  s.foldr spaceSplitStep [[]]

/-- One character of the sentence matcher, processed from the left.  The
state is `(matches, run, terms)`: completed matches, the current run of
non-terminators, and the current run of terminators following it.  A
terminator with an empty `run` can start no match and is skipped; a
terminator otherwise extends `terms`; a non-terminator after a nonempty
`terms` completes the match `run ++ terms`; otherwise it extends `run`. -/
def sentStepFold (st : List Str × Str × Str) (c : Char) : List Str × Str × Str :=
  if sentTerm c then
    if st.2.1 = [] then st else (st.1, st.2.1, st.2.2 ++ [c])
  else
    if st.2.2 ≠ [] then (st.1 ++ [st.2.1 ++ st.2.2], [c], [])
    else (st.1, st.2.1 ++ [c], [])

/-- Model of `text.match(/[^.!?]+[.!?]+/g)`: the (possibly empty) list of
maximal matches, each a nonempty run of non-terminators followed by a
nonempty run of terminators.  Text before the first match (a leading
terminator run) and unterminated trailing text are not part of any match;
a final pending `run ++ terms` with nonempty `terms` is the last match. -/
def splitSentences (cs : Str) : List Str :=
  let st := cs.foldl sentStepFold ([], [], [])
  st.1 ++ (if st.2.2 ≠ [] then [st.2.1 ++ st.2.2] else [])

/-- The sentence list used by the chunker: the regex matches, or, when the
regex finds no match (`match` returns `null`), the whole text as one
sentence (`text.match(...) || [text]`). -/
def sentencesOf (cs : Str) : List Str :=
  match splitSentences cs with
  | [] => [cs]
  | ss => ss

/-- One step of the inner word-packing loop of `chunkText` (state:
`(chunks, tempChunk)`, input: the next word). -/
def wordStep (maxChars : ℕ) (st : List Str × Str) (word : Str) : List Str × Str :=
  let chunks := st.1
  let tempChunk := st.2
  if (tempChunk ++ ' ' :: word).length ≤ maxChars then
    (chunks, if tempChunk ≠ [] then tempChunk ++ ' ' :: word else word)
  else
    ((if tempChunk ≠ [] then chunks ++ [trimL tempChunk] else chunks), word)

/-- One step of the outer sentence loop of `chunkText` (state:
`(chunks, currentChunk)`, input: the next sentence).  Note the faithful
quirk: after the word loop, `currentChunk` is updated only when the final
`tempChunk` is nonempty (`if (tempChunk) currentChunk = tempChunk`),
otherwise it keeps its old (already flushed) value. -/
def sentenceStep (maxChars : ℕ) (st : List Str × Str) (sentence : Str) :
    List Str × Str :=
  let chunks := st.1
  let currentChunk := st.2
  if (currentChunk ++ sentence).length ≤ maxChars then
    (chunks, currentChunk ++ sentence)
  else
    let chunks1 := if currentChunk ≠ [] then chunks ++ [trimL currentChunk] else chunks
    if maxChars < sentence.length then
      let words := splitOnSpace sentence
      let inner := words.foldl (wordStep maxChars) (chunks1, [])
      (inner.1, if inner.2 ≠ [] then inner.2 else currentChunk)
    else
      (chunks1, sentence)

/-- Model of `KnowledgeManager.chunkText`. -/
def chunkText (text : Str) (maxChars : ℕ) : List Str :=
  let sentences := sentencesOf text
  let st := sentences.foldl (sentenceStep maxChars) ([], [])
  st.1 ++ (if st.2 ≠ [] then [trimL st.2] else [])

/-- Constant from `KNOWLEDGE_CONFIG` in `constants.ts`. -/
def KNOWLEDGE_CONFIG.MAX_CHARS_PER_CHUNK : ℕ := 600

/-- Constant from `KNOWLEDGE_CONFIG` in `constants.ts`. -/
def KNOWLEDGE_CONFIG.RETRIEVAL_TOP_K : ℕ := 5

/-- Constant from `KNOWLEDGE_CONFIG` in `constants.ts`. -/
def KNOWLEDGE_CONFIG.RETRIEVAL_THRESHOLD : ℚ := 1/2

/-- A page produced by the scraper (`ScrapedPage`). -/
structure ScrapedPage where
  url : String
  title : String
  content : Str
deriving DecidableEq, Repr

/-- A stored record of the knowledge base (`EmbeddedKnowledgeRecord`). -/
structure EmbeddedKnowledgeRecord where
  text : Str
  embedding : List ℚ
deriving DecidableEq, Repr

/-- The chunk texts `loadDocumentationWithEmbeddings` sends to the
embedder: all pages chunked, then chunks whose trimmed length is below 10
filtered out. -/
def validTexts (pages : List ScrapedPage) : List Str :=
  ((pages.map (fun p => chunkText p.content KNOWLEDGE_CONFIG.MAX_CHARS_PER_CHUNK)).flatten).filter
    (fun t => 10 ≤ (trimL t).length)

/-- One iteration of the record/failure accounting loop of
`loadDocumentationWithEmbeddings`: for the valid text at position `it.1`,
`batchResult.embeddings[it.1]` is kept when present and nonempty
(`embedding && embedding.length > 0`), otherwise counted as a failure. -/
def buildStep (embeddings : List (List ℚ))
    (acc : List EmbeddedKnowledgeRecord × ℕ) (it : ℕ × Str) :
    List EmbeddedKnowledgeRecord × ℕ :=
  match embeddings[it.1]? with
  | some e => if 0 < e.length then (acc.1 ++ [⟨it.2, e⟩], acc.2) else (acc.1, acc.2 + 1)
  | none => (acc.1, acc.2 + 1)

/-- The record/failure accounting loop of `loadDocumentationWithEmbeddings`.
`embeddings` is the batch result returned by the external embedding
service, supplied as a parameter of the model. -/
def buildRecords (embeddings : List (List ℚ)) (texts : List Str) :
    List EmbeddedKnowledgeRecord × ℕ :=
  texts.enum.foldl (buildStep embeddings) ([], 0)

/-- Model of `KnowledgeManager.loadDocumentationWithEmbeddings`.  The
method first clears `this.embeddedRecords`, pushes each successfully
embedded record, and only afterwards checks the failure rate; the returned
pair is (thrown error or success, the final contents of
`this.embeddedRecords` when the method returns or throws). -/
def loadDocumentationWithEmbeddings (embeddings : List (List ℚ))
    (pages : List ScrapedPage) :
    Except String Unit × List EmbeddedKnowledgeRecord :=
  let vt := validTexts pages
  if vt.length = 0 then
    (Except.error "No valid text chunks found for embedding", [])
  else
    let br := buildRecords embeddings vt
    if 1/2 < (br.2 : ℚ) / (vt.length : ℚ) then
      (Except.error "Embedding failure rate too high", br.1)
    else
      (Except.ok (), br.1)

/-- The record kept for one indexed valid text, if any: the text zipped
with `embeddings[i]` when that embedding is present and nonempty. -/
def successOf (embeddings : List (List ℚ)) (it : ℕ × Str) :
    Option EmbeddedKnowledgeRecord :=
  match embeddings[it.1]? with
  | some e => if 0 < e.length then some ⟨it.2, e⟩ else none
  | none => none

/-- Specification-style description of the records kept by a populate
call: the valid texts zipped positionally with the embedder's output,
keeping exactly the positions whose embedding is present and nonempty. -/
def successRecords (embeddings : List (List ℚ)) (texts : List Str) :
    List EmbeddedKnowledgeRecord :=
  texts.enum.filterMap (successOf embeddings)

/-- Similarity value of `EmbedderService.cosineSimilarity`:
`val k` represents the real similarity `s = dot / (√normA · √normB)`
through the key `k = s · |s|` (the map `x ↦ x·|x|` is strictly increasing,
see `simKey_eq_real_form` below); `nan` is the IEEE NaN produced by the
unguarded `0/0` when `normA * normB = 0` (in which case the dot product is
necessarily 0 as well, see `dot_eq_zero_of_normProd_eq_zero`). -/
inductive Score where
  | nan : Score
  | val (key : ℚ) : Score
deriving DecidableEq, Repr

/-- Loop accumulator `dotProduct` of `cosineSimilarity` (the loop runs
over equal-length vectors only, after the length guard). -/
def dotProduct (a b : List ℚ) : ℚ := (List.zipWith (· * ·) a b).sum

/-- Loop accumulators `normA` / `normB` of `cosineSimilarity`. -/
def normSq (v : List ℚ) : ℚ := (v.map (fun x => x * x)).sum

/-- Key of the real number `d / √n` for `n > 0` under the strictly
increasing map `x ↦ x·|x|`, kept in `ℚ`:
`(d/√n)·|d/√n| = sign(d)·d²/n`. -/
def simKey (d n : ℚ) : ℚ := if 0 ≤ d then d ^ 2 / n else -(d ^ 2 / n)

/-- Model of `EmbedderService.cosineSimilarity`: throws on a length
mismatch, otherwise returns `dot / (√normA · √normB)` — `nan` when the
denominator is zero (then the numerator is forced to 0, so the JS value is
`0/0 = NaN`), and otherwise the similarity represented by its key. -/
def cosineSimilarity (a b : List ℚ) : Except String Score :=
  if a.length ≠ b.length then
    Except.error "Vectors must have the same length"
  else
    let d := dotProduct a b
    let nA := normSq a
    let nB := normSq b
    if nA * nB = 0 then Except.ok Score.nan
    else Except.ok (Score.val (simKey d (nA * nB)))

/-- Sort placement of a score for the comparator
`(a, b) => b.similarity - a.similarity`.  For genuine values the key order
mirrors the real order.  A comparison involving NaN returns NaN, which
ECMA-262 leaves implementation-defined for `Array.prototype.sort`; the
model adopts the reading that it acts as comparator result 0 (a tie), so
`nan` is placed like the value 0. -/
def Score.key : Score → ℚ
  | Score.nan => 0
  | Score.val k => k

/-- Model of the JS comparison `s >= t` of a similarity against a rational
threshold constant: `NaN >= t` is `false` for every `t` (this part is
fully specified by ECMA-262); for a genuine value, compare keys
(`simKey t 1 = t·|t|` is the key of `t`). -/
def Score.geRat : Score → ℚ → Bool
  | Score.nan, _ => false
  | Score.val k, t => decide (simKey t 1 ≤ k)

/-- An element of the `similarities` array built by
`KnowledgeRetrievalNode.process`: `{record: text, similarity, index}`. -/
structure ScoredRecord where
  record : Str
  similarity : Score
  index : ℕ
deriving DecidableEq, Repr

/-- The scoring pass of `KnowledgeRetrievalNode.process`: each stored
record is scored against the query; a record on which `cosineSimilarity`
throws is caught and given similarity 0 (key 0). -/
def scoreRecords (queryEmbedding : List ℚ) (records : List EmbeddedKnowledgeRecord) :
    List ScoredRecord :=
  records.enum.map
    (fun ir =>
      match cosineSimilarity queryEmbedding ir.2.embedding with
      | Except.ok s => ⟨ir.2.text, s, ir.1⟩
      | Except.error _ => ⟨ir.2.text, Score.val 0, ir.1⟩)

/-- Ordering used to model the stable JS sort with comparator
`(a, b) => b.similarity - a.similarity`: descending by similarity, and —
expressing the stability guarantee of `Array.prototype.sort` — ties broken
by the source index the code stores in each element. -/
def sortLE (a b : ScoredRecord) : Bool :=
  decide (Score.key b.similarity < Score.key a.similarity ∨
    (Score.key a.similarity = Score.key b.similarity ∧ a.index ≤ b.index))

/-- The `sortedSimilarities` array of `KnowledgeRetrievalNode.process`. -/
def sortedScores (scored : List ScoredRecord) : List ScoredRecord :=
  scored.mergeSort sortLE

/-- The `aboveThreshold` array: sorted scores filtered by
`similarity >= threshold`. -/
def aboveThreshold (threshold : ℚ) (scored : List ScoredRecord) : List ScoredRecord :=
  (sortedScores scored).filter (fun item => Score.geRat item.similarity threshold)

/-- The `topRecords` array: at most `topK` of the above-threshold items,
mapped to their texts.  (In the code `threshold` and `topK` are the
`KNOWLEDGE_CONFIG` constants; they are parameters here.) -/
def rankRecords (threshold : ℚ) (topK : ℕ) (scored : List ScoredRecord) : List Str :=
  ((aboveThreshold threshold scored).take topK).map (fun item => item.record)

/-- Model of `KnowledgeRetrievalNode.process`: throws
`'No embedded records available'` on an empty store, otherwise returns the
ranked texts. -/
def knowledgeRetrievalProcess (records : List EmbeddedKnowledgeRecord)
    (queryEmbedding : List ℚ) : Except String (List Str) :=
  if records.length = 0 then
    Except.error "No embedded records available"
  else
    Except.ok (rankRecords KNOWLEDGE_CONFIG.RETRIEVAL_THRESHOLD
      KNOWLEDGE_CONFIG.RETRIEVAL_TOP_K (scoreRecords queryEmbedding records))

/-- Result of one `fetchPageWithLinks` call (the function catches every
fetch error and resolves with `{page: null, links: []}`, so each settled
promise is modelled as a plain value supplied by the `fetch` parameter). -/
structure FetchResult where
  page : Option ScrapedPage
  links : List String
deriving Repr

/-- State of the `crawlLinks` loop, with a ghost field `dispatched`
recording every URL ever passed to a fetch, in dispatch order. -/
structure CrawlState where
  pages : List ScrapedPage
  toCrawl : List String
  visited : List String
  dispatched : List String
deriving Repr

/-- Constant `CONCURRENT_LIMIT` of `DocumentationScraper`. -/
def CONCURRENT_LIMIT : ℕ := 5

/-- Enqueueing of one discovered link inside the crawl loop:
`if (!this.visitedUrls.has(link) && !toCrawl.includes(link)) toCrawl.push(link)`. -/
def enqueueLink (a : CrawlState) (link : String) : CrawlState :=
  if link ∉ a.visited ∧ link ∉ a.toCrawl then
    { a with toCrawl := a.toCrawl ++ [link] }
  else a

/-- Processing of one settled fetch result inside the crawl loop: append
the page (if any), then enqueue each discovered link that is neither
visited nor already queued. -/
def processResult (acc : CrawlState) (r : FetchResult) : CrawlState :=
  let acc1 :=
    match r.page with
    | some p => { acc with pages := acc.pages ++ [p] }
    | none => acc
  r.links.foldl enqueueLink acc1

/-- One iteration of the `while` loop of `crawlLinks`: splice a batch off
the frontier, truncate it to the remaining page capacity, mark the batch
visited BEFORE dispatching the fetches (claim-then-fetch), then process
each settled result. -/
def crawlStep (fetch : String → FetchResult) (maxPages : ℕ) (st : CrawlState) :
    CrawlState :=
  let batch := st.toCrawl.take CONCURRENT_LIMIT
  let rest := st.toCrawl.drop CONCURRENT_LIMIT
  let remainingSlots := maxPages - st.pages.length
  let urlsToProcess := batch.take remainingSlots
  let visited1 := st.visited ++ urlsToProcess
  let results := urlsToProcess.map fetch
  results.foldl processResult
    { pages := st.pages, toCrawl := rest, visited := visited1,
      dispatched := st.dispatched ++ urlsToProcess }

/-- The `while (toCrawl.length > 0 && pages.length < maxPages)` loop,
driven by explicit fuel; the boolean is `true` when the loop exited via
its condition within the given fuel (a completed crawl). -/
def crawlLoop (fetch : String → FetchResult) (maxPages : ℕ) :
    ℕ → CrawlState → CrawlState × Bool
  | 0, st => (st, decide (st.toCrawl = [] ∨ maxPages ≤ st.pages.length))
  | fuel + 1, st =>
    if st.toCrawl ≠ [] ∧ st.pages.length < maxPages then
      crawlLoop fetch maxPages fuel (crawlStep fetch maxPages st)
    else (st, true)

/-- Model of `DocumentationScraper.crawlLinks` starting from a seed URL. -/
def crawlLinks (fetch : String → FetchResult) (baseUrl : String) (maxPages : ℕ)
    (fuel : ℕ) : CrawlState × Bool :=
  crawlLoop fetch maxPages fuel
    { pages := [], toCrawl := [baseUrl], visited := [], dispatched := [] }

/-- Outcome of `MessageHandler.handleChat` before any graph execution. -/
inductive ChatAction where
  | rejectedNotReady (msg : String) : ChatAction
  | processed : ChatAction
deriving DecidableEq, Repr

/-- Model of the guard of `MessageHandler.handleChat`: when no graph
exists or the connection state has `knowledgeLoaded = false`, the message
is rejected with the not-ready error and the handler returns without
issuing any retrieval. -/
def handleChat (graphExists knowledgeLoaded : Bool) : ChatAction :=
  if !graphExists || !knowledgeLoaded then
    ChatAction.rejectedNotReady "Please load documentation first before asking questions."
  else
    ChatAction.processed

/-! ### Helper lemmas: knowledge-store population -/

lemma buildStep_eq (embeddings : List (List ℚ)) (acc : List EmbeddedKnowledgeRecord × ℕ)
    (it : ℕ × Str) :
    buildStep embeddings acc it =
      match successOf embeddings it with
      | some r => (acc.1 ++ [r], acc.2)
      | none => (acc.1, acc.2 + 1) := by
  unfold buildStep successOf
  rcases h : embeddings[it.1]? with _ | e
  · rfl
  · by_cases he : 0 < e.length <;> simp [he]

lemma buildRecords_foldl (embeddings : List (List ℚ)) (l : List (ℕ × Str))
    (acc : List EmbeddedKnowledgeRecord × ℕ) :
    l.foldl (buildStep embeddings) acc =
      (acc.1 ++ l.filterMap (successOf embeddings),
       acc.2 + (l.length - (l.filterMap (successOf embeddings)).length)) := by
  induction l generalizing acc with
  | nil => simp
  | cons it l ih =>
    have hle := List.length_filterMap_le (successOf embeddings) l
    rw [List.foldl_cons, ih, buildStep_eq, List.filterMap_cons]
    rcases h : successOf embeddings it with _ | r
    · refine Prod.ext rfl ?_
      simp only [List.length_cons]
      omega
    · refine Prod.ext ?_ ?_
      · simp
      · simp only [List.length_cons]
        omega

lemma buildRecords_eq (embeddings : List (List ℚ)) (texts : List Str) :
    buildRecords embeddings texts =
      (successRecords embeddings texts,
       texts.length - (successRecords embeddings texts).length) := by
  unfold buildRecords successRecords
  rw [buildRecords_foldl]
  simp

lemma rate_gt_half_iff (f n : ℕ) (hn : 0 < n) :
    ((1 : ℚ)/2 < (f : ℚ) / (n : ℚ)) ↔ n < 2 * f := by
  have hn' : (0 : ℚ) < (n : ℚ) := by exact_mod_cast hn
  rw [div_lt_div_iff (by norm_num) hn', one_mul]
  constructor
  · intro h
    have h2 : ((n : ℕ) : ℚ) < ((2 * f : ℕ) : ℚ) := by push_cast; linarith
    exact_mod_cast h2
  · intro h
    have h2 : ((n : ℕ) : ℚ) < ((2 * f : ℕ) : ℚ) := by exact_mod_cast h
    push_cast at h2
    linarith

lemma load_spec (embeddings : List (List ℚ)) (pages : List ScrapedPage)
    (h : validTexts pages ≠ []) :
    loadDocumentationWithEmbeddings embeddings pages =
      ((if (validTexts pages).length <
            2 * ((validTexts pages).length -
              (successRecords embeddings (validTexts pages)).length)
        then Except.error "Embedding failure rate too high"
        else Except.ok ()),
       successRecords embeddings (validTexts pages)) := by
  have hlen : ¬ (validTexts pages).length = 0 := by
    simpa [List.length_eq_zero] using h
  have hpos : 0 < (validTexts pages).length := Nat.pos_of_ne_zero hlen
  unfold loadDocumentationWithEmbeddings
  simp only [buildRecords_eq, hlen, if_false]
  by_cases hc : (validTexts pages).length <
      2 * ((validTexts pages).length - (successRecords embeddings (validTexts pages)).length)
  · rw [if_pos ((rate_gt_half_iff _ _ hpos).mpr hc), if_pos hc]
  · rw [if_neg (fun hlt => hc ((rate_gt_half_iff _ _ hpos).mp hlt)), if_neg hc]

/-- Ten pages, each contributing exactly one valid chunk. -/
def scenarioTenPages : List ScrapedPage :=
  (List.range 10).map (fun i => ⟨toString i, "t", "aaaaaaaaaaaa.".toList⟩)

/-- Batch embedding result failing on 6 of 10 chunks. -/
def embedsSixFail : List (List ℚ) := [[1], [1], [1], [1], [], [], [], [], [], []]

/-- Batch embedding result failing on 4 of 10 chunks. -/
def embedsFourFail : List (List ℚ) := [[1], [1], [1], [1], [1], [1], [], [], [], []]

/-- C3: populate with `n ≥ 1` valid chunks fails iff the number of
dropped embeddings is strictly more than 50% of `n`; on success the store
holds exactly the successfully embedded records zipped positionally with
their chunk texts; with no valid chunk it fails; concretely 10 valid
chunks with 6 failures raise the systemic error while 4 failures succeed
with 6 stored records. -/
theorem populate_failure_policy :
    (∀ (pages : List ScrapedPage) (embeddings : List (List ℚ)),
      1 ≤ (validTexts pages).length →
      ((validTexts pages).length <
          2 * ((validTexts pages).length -
            (successRecords embeddings (validTexts pages)).length) →
        loadDocumentationWithEmbeddings embeddings pages =
          (Except.error "Embedding failure rate too high",
           successRecords embeddings (validTexts pages))) ∧
      (2 * ((validTexts pages).length -
            (successRecords embeddings (validTexts pages)).length) ≤
          (validTexts pages).length →
        loadDocumentationWithEmbeddings embeddings pages =
          (Except.ok (), successRecords embeddings (validTexts pages)))) ∧
    (∀ (pages : List ScrapedPage) (embeddings : List (List ℚ)),
      validTexts pages = [] →
      loadDocumentationWithEmbeddings embeddings pages =
        (Except.error "No valid text chunks found for embedding", [])) ∧
    (validTexts scenarioTenPages).length = 10 ∧
    (loadDocumentationWithEmbeddings embedsSixFail scenarioTenPages).1 =
      Except.error "Embedding failure rate too high" ∧
    (loadDocumentationWithEmbeddings embedsFourFail scenarioTenPages).1 = Except.ok () ∧
    ((loadDocumentationWithEmbeddings embedsFourFail scenarioTenPages).2).length = 6 := by
  have hten : validTexts scenarioTenPages ≠ [] := by decide
  refine ⟨?_, ?_, by decide, ?_, ?_, ?_⟩
  · intro pages embeddings h1
    have hne : validTexts pages ≠ [] := by
      intro he
      rw [he] at h1
      simp at h1
    constructor
    · intro hc
      rw [load_spec embeddings pages hne, if_pos hc]
    · intro hc
      rw [load_spec embeddings pages hne, if_neg (by omega)]
  · intro pages embeddings he
    unfold loadDocumentationWithEmbeddings
    simp [he]
  · rw [load_spec embedsSixFail scenarioTenPages hten, if_pos (by decide)]
  · rw [load_spec embedsFourFail scenarioTenPages hten, if_neg (by decide)]
  · rw [load_spec embedsFourFail scenarioTenPages hten]
    decide

/-- Witness for C3 at a concrete input: 10 valid chunks, 6 embedding
failures, systemic error with the 4 successful records retained. -/
theorem populate_failure_policy_witness :
    loadDocumentationWithEmbeddings embedsSixFail scenarioTenPages =
      (Except.error "Embedding failure rate too high",
       successRecords embedsSixFail (validTexts scenarioTenPages)) :=
  (populate_failure_policy.1 scenarioTenPages embedsSixFail (by decide)).1 (by decide)

/-- C5 counterexample: a populate call with 10 valid chunks and 6
embedding failures raises the embedding-systemic error, yet afterwards
the store still holds the 4 records that did embed — a partial knowledge
base from the failed load is kept, contradicting the claim that none is. -/
theorem populate_partial_store_counterexample :
    (loadDocumentationWithEmbeddings embedsSixFail scenarioTenPages).1 =
      Except.error "Embedding failure rate too high" ∧
    (loadDocumentationWithEmbeddings embedsSixFail scenarioTenPages).2 ≠ [] ∧
    ((loadDocumentationWithEmbeddings embedsSixFail scenarioTenPages).2).length = 4 := by
  have hten : validTexts scenarioTenPages ≠ [] := by decide
  refine ⟨?_, ?_, ?_⟩
  · rw [load_spec embedsSixFail scenarioTenPages hten, if_pos (by decide)]
  · rw [load_spec embedsSixFail scenarioTenPages hten]
    decide
  · rw [load_spec embedsSixFail scenarioTenPages hten]
    decide

/-- C5 (amended): a populate call that fails with the embedding-systemic
error (strictly more than 50% of the valid chunks fail to embed) leaves
the store holding exactly the successfully embedded records of the failed
load — the array is cleared at the start of a populate call, records are
pushed as they succeed, and the error is thrown only afterwards, so the
partial result remains until the next load clears it. -/
theorem populate_failed_load_keeps_successes
    (pages : List ScrapedPage) (embeddings : List (List ℚ))
    (h1 : 1 ≤ (validTexts pages).length)
    (h2 : (validTexts pages).length <
      2 * ((validTexts pages).length -
        (successRecords embeddings (validTexts pages)).length)) :
    loadDocumentationWithEmbeddings embeddings pages =
      (Except.error "Embedding failure rate too high",
       successRecords embeddings (validTexts pages)) := by
  have hne : validTexts pages ≠ [] := by
    intro he
    rw [he] at h1
    simp at h1
  rw [load_spec embeddings pages hne, if_pos h2]

/-- Witness for the amended C5 at the concrete 6-of-10-failures input. -/
theorem populate_failed_load_keeps_successes_witness :
    loadDocumentationWithEmbeddings embedsSixFail scenarioTenPages =
      (Except.error "Embedding failure rate too high",
       successRecords embedsSixFail (validTexts scenarioTenPages)) :=
  populate_failed_load_keeps_successes scenarioTenPages embedsSixFail
    (by decide) (by decide)

/-- C4 counterexample: invoking retrieve on an empty knowledge store does
raise an error — `KnowledgeRetrievalNode.process` throws
`'No embedded records available'` when the store is empty, contradicting
the claim that an empty store yields no error from retrieve itself. -/
theorem retrieve_empty_store_counterexample :
    knowledgeRetrievalProcess [] [1] =
      Except.error "No embedded records available" := rfl

/-- C4 (amended): invoking retrieve on an empty knowledge store raises
the `'No embedded records available'` error from the retrieval node
itself; independently, the caller rejects a chat message issued before
any successful populate (no graph, or `knowledgeLoaded = false`) with the
not-ready error, returning without any retrieval taking place. -/
theorem retrieve_empty_and_caller_guard :
    (∀ queryEmbedding : List ℚ,
      knowledgeRetrievalProcess [] queryEmbedding =
        Except.error "No embedded records available") ∧
    (∀ graphExists knowledgeLoaded : Bool,
      graphExists = false ∨ knowledgeLoaded = false →
      handleChat graphExists knowledgeLoaded =
        ChatAction.rejectedNotReady
          "Please load documentation first before asking questions.") := by
  constructor
  · intro q
    rfl
  · intro g k h
    rcases h with h | h
    · subst h
      cases k <;> rfl
    · subst h
      cases g <;> rfl

/-- Witness for the amended C4: a chat issued with no graph loaded is
rejected with the not-ready error. -/
theorem retrieve_empty_and_caller_guard_witness :
    handleChat false true =
      ChatAction.rejectedNotReady
        "Please load documentation first before asking questions." :=
  retrieve_empty_and_caller_guard.2 false true (Or.inl rfl)

/-! ### Helper lemmas: cosine similarity and the similarity-key encoding -/

lemma normSq_nonneg (v : List ℚ) : 0 ≤ normSq v := by
  induction v with
  | nil => simp [normSq]
  | cons x v ih =>
    simp only [normSq, List.map_cons, List.sum_cons] at *
    nlinarith [mul_self_nonneg x]

lemma normSq_eq_zero (v : List ℚ) (h : normSq v = 0) : ∀ x ∈ v, x = 0 := by
  induction v with
  | nil => simp
  | cons y v ih =>
    have h1 : 0 ≤ normSq v := normSq_nonneg v
    simp only [normSq, List.map_cons, List.sum_cons] at h h1
    have h2 : 0 ≤ y * y := mul_self_nonneg y
    have hy : y * y = 0 := by nlinarith
    intro x hx
    rcases List.mem_cons.mp hx with hx | hx
    · subst hx
      exact mul_self_eq_zero.mp hy
    · exact ih (by simp only [normSq, List.map_cons, List.sum_cons] at *; nlinarith) x hx

lemma dot_zero_left (a b : List ℚ) (ha : ∀ x ∈ a, x = 0) : dotProduct a b = 0 := by
  induction a generalizing b with
  | nil => simp [dotProduct]
  | cons x a ih =>
    cases b with
    | nil => simp [dotProduct]
    | cons y b =>
      have hx : x = 0 := ha x (List.mem_cons_self x a)
      have ht := ih b (fun z hz => ha z (List.mem_cons_of_mem x hz))
      simp only [dotProduct, List.zipWith_cons_cons, List.sum_cons] at *
      rw [hx, ht]
      ring

lemma dot_zero_right (a b : List ℚ) (hb : ∀ x ∈ b, x = 0) : dotProduct a b = 0 := by
  induction a generalizing b with
  | nil => simp [dotProduct]
  | cons x a ih =>
    cases b with
    | nil => simp [dotProduct]
    | cons y b =>
      have hy : y = 0 := hb y (List.mem_cons_self y b)
      have ht := ih b (fun z hz => hb z (List.mem_cons_of_mem y hz))
      simp only [dotProduct, List.zipWith_cons_cons, List.sum_cons] at *
      rw [hy, ht]
      ring

/-- When the product of the squared norms vanishes, one of the vectors is
the zero vector, hence the dot product vanishes as well — so the JS value
of the unguarded division is exactly `0/0 = NaN`, never `±Infinity`. -/
lemma dot_eq_zero_of_normProd_eq_zero (a b : List ℚ)
    (h : normSq a * normSq b = 0) : dotProduct a b = 0 := by
  rcases mul_eq_zero.mp h with h | h
  · exact dot_zero_left a b (normSq_eq_zero a h)
  · exact dot_zero_right a b (normSq_eq_zero b h)

/-- The map `x ↦ x·|x|` under which similarities are keyed is strictly
increasing, so all order comparisons on keys mirror those on values. -/
lemma mulAbs_strictMono : StrictMono (fun x : ℝ => x * |x|) := by
  intro a b hab
  show a * |a| < b * |b|
  rcases le_or_lt 0 a with ha | ha
  · have hb : 0 < b := lt_of_le_of_lt ha hab
    simp only [abs_of_nonneg ha, abs_of_pos hb]
    nlinarith
  · rcases le_or_lt 0 b with hb | hb
    · have : a * |a| < 0 := by
        simp only [abs_of_neg ha]
        nlinarith
      have h2 : 0 ≤ b * |b| := by
        simp only [abs_of_nonneg hb]
        nlinarith
      linarith
    · simp only [abs_of_neg ha, abs_of_neg hb]
      nlinarith

/-- Faithfulness of the key encoding: for `0 < n`, the rational
`simKey d n` is exactly `s·|s|` where `s = d/√n` is the real value the
JS code computes as `dot / (Math.sqrt(normA) * Math.sqrt(normB))`. -/
lemma simKey_eq_real_form (d n : ℚ) (hn : 0 < n) :
    ((simKey d n : ℚ) : ℝ) =
      ((d : ℝ) / Real.sqrt (n : ℝ)) * |(d : ℝ) / Real.sqrt (n : ℝ)| := by
  have hn' : (0 : ℝ) < (n : ℝ) := by exact_mod_cast hn
  have hs : Real.sqrt (n : ℝ) * Real.sqrt (n : ℝ) = (n : ℝ) :=
    Real.mul_self_sqrt hn'.le
  have hspos : 0 < Real.sqrt (n : ℝ) := Real.sqrt_pos.mpr hn'
  rcases le_or_lt 0 d with hd | hd
  · have hd' : (0 : ℝ) ≤ (d : ℝ) := by exact_mod_cast hd
    have habs : |(d : ℝ) / Real.sqrt (n : ℝ)| = (d : ℝ) / Real.sqrt (n : ℝ) :=
      abs_of_nonneg (div_nonneg hd' hspos.le)
    rw [simKey, if_pos hd, habs]
    push_cast
    rw [div_mul_div_comm, hs]
    ring
  · have hd' : ((d : ℝ)) < 0 := by exact_mod_cast hd
    have habs : |(d : ℝ) / Real.sqrt (n : ℝ)| = -((d : ℝ) / Real.sqrt (n : ℝ)) :=
      abs_of_neg (div_neg_of_neg_of_pos hd' hspos)
    rw [simKey, if_neg (not_le.mpr hd), habs]
    push_cast
    rw [mul_neg, div_mul_div_comm, hs]
    ring

/-- Faithfulness of the threshold filter: for a genuine similarity with
key `simKey d n` (`0 < n`), the model's `>= t` test agrees with the real
comparison `t ≤ d/√n` performed by the JS code. -/
lemma geRat_val_iff (d n t : ℚ) (hn : 0 < n) :
    Score.geRat (Score.val (simKey d n)) t = true ↔
      (t : ℝ) ≤ (d : ℝ) / Real.sqrt (n : ℝ) := by
  have h1 : ((simKey t 1 : ℚ) : ℝ) = (t : ℝ) * |(t : ℝ)| := by
    rw [simKey_eq_real_form t 1 one_pos]
    norm_num
  have h2 := simKey_eq_real_form d n hn
  rw [Score.geRat, decide_eq_true_eq]
  constructor
  · intro h
    have hr : ((simKey t 1 : ℚ) : ℝ) ≤ ((simKey d n : ℚ) : ℝ) := by exact_mod_cast h
    rw [h1, h2] at hr
    exact (mulAbs_strictMono.le_iff_le).mp hr
  · intro h
    have hr : (t : ℝ) * |(t : ℝ)| ≤
        ((d : ℝ) / Real.sqrt (n : ℝ)) * |(d : ℝ) / Real.sqrt (n : ℝ)| :=
      (mulAbs_strictMono.le_iff_le).mpr h
    rw [← h1, ← h2] at hr
    exact_mod_cast hr

lemma cosineSimilarity_error_iff (a b : List ℚ) :
    (∃ e, cosineSimilarity a b = Except.error e) ↔ a.length ≠ b.length := by
  unfold cosineSimilarity
  by_cases h : a.length ≠ b.length
  · simp [h]
  · by_cases h2 : normSq a * normSq b = 0 <;> simp [h, h2]

lemma geRat_val_zero (t : ℚ) (ht : 0 < t) :
    Score.geRat (Score.val 0) t = false := by
  have h : ¬ simKey t 1 ≤ 0 := by
    rw [simKey, if_pos ht.le, div_one]
    push_neg
    positivity
  simp [Score.geRat, h]

lemma geRat_nan (t : ℚ) : Score.geRat Score.nan t = false := rfl

/-- C7: `cosineSimilarity` raises the dimension-mismatch error exactly
when the vector lengths differ; during retrieval this error is caught for
the affected record, whose similarity becomes 0 — below any positive
threshold — and retrieval itself still succeeds on a nonempty store. -/
theorem cosine_mismatch_policy :
    (∀ a b : List ℚ,
      (∃ e, cosineSimilarity a b = Except.error e) ↔ a.length ≠ b.length) ∧
    (∀ (queryEmbedding : List ℚ) (records : List EmbeddedKnowledgeRecord)
        (ir : ℕ × EmbeddedKnowledgeRecord),
      ir ∈ records.enum →
      queryEmbedding.length ≠ ir.2.embedding.length →
      (⟨ir.2.text, Score.val 0, ir.1⟩ : ScoredRecord) ∈
        scoreRecords queryEmbedding records) ∧
    (∀ t : ℚ, 0 < t → Score.geRat (Score.val 0) t = false) ∧
    (∀ (records : List EmbeddedKnowledgeRecord) (q : List ℚ),
      records ≠ [] → ∃ out, knowledgeRetrievalProcess records q = Except.ok out) := by
  refine ⟨cosineSimilarity_error_iff, ?_, geRat_val_zero, ?_⟩
  · intro q records ir hmem hlen
    have herr : cosineSimilarity q ir.2.embedding =
        Except.error "Vectors must have the same length" := by
      unfold cosineSimilarity
      rw [if_pos hlen]
    unfold scoreRecords
    refine List.mem_map.mpr ⟨ir, hmem, ?_⟩
    rw [herr]
  · intro records q h
    have hlen : ¬ records.length = 0 := by
      simpa [List.length_eq_zero] using h
    unfold knowledgeRetrievalProcess
    rw [if_neg hlen]
    exact ⟨_, rfl⟩

/-- Witness for C7: concrete mismatched vectors produce the error, and a
store holding such a record still answers retrieval successfully. -/
theorem cosine_mismatch_policy_witness :
    (∃ e, cosineSimilarity [(1 : ℚ)] [1, 2] = Except.error e) ∧
    (∃ out, knowledgeRetrievalProcess [⟨['a'], [1, 2]⟩] [1] = Except.ok out) :=
  ⟨(cosine_mismatch_policy.1 [1] [1, 2]).mpr (by decide),
   cosine_mismatch_policy.2.2.2 [⟨['a'], [1, 2]⟩] [1] (by decide)⟩

lemma cosineSimilarity_zero_norm (a b : List ℚ) (hlen : a.length = b.length)
    (h0 : normSq b = 0) : cosineSimilarity a b = Except.ok Score.nan := by
  unfold cosineSimilarity
  rw [if_neg (by simp [hlen]), if_pos (by rw [h0, mul_zero])]

/-- C10: `cosineSimilarity` raises exactly on a length mismatch — for
equal-length vectors it never raises, even when a vector has zero norm:
the division by the product of norms is unguarded, and the zero-norm
result is the non-number `0/0` (`Score.nan`, with the numerator forced to
0 by `dot_eq_zero_of_normProd_eq_zero`), which fails the `>= threshold`
comparison for every threshold; consequently a stored record whose
embedding has zero norm is never selected by retrieval for any positive
threshold. -/
theorem cosine_zero_norm_safety :
    (∀ a b : List ℚ,
      (∃ e, cosineSimilarity a b = Except.error e) ↔ a.length ≠ b.length) ∧
    (∀ a b : List ℚ, a.length = b.length → normSq b = 0 →
      cosineSimilarity a b = Except.ok Score.nan) ∧
    (∀ t : ℚ, Score.geRat Score.nan t = false) ∧
    (∀ (records : List EmbeddedKnowledgeRecord) (q : List ℚ) (i : ℕ)
        (hi : i < records.length) (t : ℚ), 0 < t →
      normSq records[i].embedding = 0 →
      ∀ item ∈ aboveThreshold t (scoreRecords q records), item.index ≠ i) := by
  refine ⟨cosineSimilarity_error_iff, cosineSimilarity_zero_norm, geRat_nan, ?_⟩
  intro records q i hi t ht h0 item hmem
  obtain ⟨hsort, hge⟩ := List.mem_filter.mp hmem
  have hscored : item ∈ scoreRecords q records := by
    unfold sortedScores at hsort
    exact List.mem_mergeSort.mp hsort
  obtain ⟨⟨j, r⟩, hir, hfir⟩ := List.mem_map.mp hscored
  intro hidx
  have hj : j = i := by
    rcases hcos : cosineSimilarity q r.embedding with e | s <;>
      simp only [hcos] at hfir <;> rw [← hfir] at hidx <;> exact hidx
  subst hj
  have hrec : r = records[j] := by
    have h2 := (List.mk_mem_enum_iff_getElem? (l := records)).mp hir
    rw [List.getElem?_eq_getElem hi] at h2
    exact (Option.some_injective _ h2).symm
  by_cases hlen : q.length ≠ r.embedding.length
  · have herr : cosineSimilarity q r.embedding =
        Except.error "Vectors must have the same length" := by
      unfold cosineSimilarity
      rw [if_pos hlen]
    simp only [herr] at hfir
    rw [← hfir] at hge
    simp only at hge
    rw [geRat_val_zero t ht] at hge
    exact Bool.false_ne_true hge
  · push_neg at hlen
    have hnan : cosineSimilarity q r.embedding = Except.ok Score.nan :=
      cosineSimilarity_zero_norm q r.embedding hlen (by rw [hrec]; exact h0)
    simp only [hnan] at hfir
    rw [← hfir] at hge
    simp only at hge
    rw [geRat_nan t] at hge
    exact Bool.false_ne_true hge

/-- Witness for C10: a concrete zero-norm stored record is excluded from
the above-threshold ranking for threshold 1. -/
theorem cosine_zero_norm_safety_witness :
    ∀ item ∈ aboveThreshold 1
      (scoreRecords [1, 0] [⟨['a'], [1, 0]⟩, ⟨['z'], [0, 0]⟩]),
      item.index ≠ 1 :=
  cosine_zero_norm_safety.2.2.2 [⟨['a'], [1, 0]⟩, ⟨['z'], [0, 0]⟩] [1, 0] 1
    (by decide) 1 one_pos (by simp [normSq])

/-! ### Helper lemmas: ranking order -/

lemma sortLE_trans (a b c : ScoredRecord) (h1 : sortLE a b = true)
    (h2 : sortLE b c = true) : sortLE a c = true := by
  simp only [sortLE, decide_eq_true_eq] at *
  rcases h1 with h1 | ⟨h1e, h1i⟩ <;> rcases h2 with h2 | ⟨h2e, h2i⟩
  · exact Or.inl (lt_trans h2 h1)
  · exact Or.inl (h2e ▸ h1)
  · exact Or.inl (h1e ▸ h2)
  · exact Or.inr ⟨h1e.trans h2e, h1i.trans h2i⟩

lemma sortLE_total (a b : ScoredRecord) : (sortLE a b || sortLE b a) = true := by
  simp only [sortLE, Bool.or_eq_true, decide_eq_true_eq]
  rcases lt_trichotomy (Score.key a.similarity) (Score.key b.similarity) with h | h | h
  · exact Or.inr (Or.inl h)
  · rcases Nat.le_total a.index b.index with hi | hi
    · exact Or.inl (Or.inr ⟨h, hi⟩)
    · exact Or.inr (Or.inr ⟨h.symm, hi⟩)
  · exact Or.inl (Or.inl h)

/-- Scenario E store: against the query embedding `[1,0,0,0]`, these four
records have cosine similarities exactly 0.9, 0.7, 0.4 and 0.3
(e.g. `[9,3,3,1]`: dot 9, norms 1 and 100, `9/√100 = 0.9`). -/
def scenRecords : List EmbeddedKnowledgeRecord :=
  [⟨['A'], [9, 3, 3, 1]⟩, ⟨['B'], [7, 7, 1, 1]⟩,
   ⟨['C'], [4, 8, 4, 2]⟩, ⟨['D'], [3, 9, 3, 1]⟩]

lemma scen_scored : scoreRecords [1, 0, 0, 0] scenRecords =
    [⟨['A'], Score.val (simKey 9 100), 0⟩, ⟨['B'], Score.val (simKey 7 100), 1⟩,
     ⟨['C'], Score.val (simKey 4 100), 2⟩, ⟨['D'], Score.val (simKey 3 100), 3⟩] := by
  norm_num [scoreRecords, scenRecords, List.enum, List.enumFrom, cosineSimilarity,
    dotProduct, normSq]

lemma scen_pairwise :
    List.Pairwise (fun a b => sortLE a b = true)
      [(⟨['A'], Score.val (simKey 9 100), 0⟩ : ScoredRecord),
       ⟨['B'], Score.val (simKey 7 100), 1⟩,
       ⟨['C'], Score.val (simKey 4 100), 2⟩,
       ⟨['D'], Score.val (simKey 3 100), 3⟩] := by
  norm_num [List.pairwise_cons, sortLE, Score.key, simKey]

lemma scen_rank :
    rankRecords (1/2) 3 (scoreRecords [1, 0, 0, 0] scenRecords) = [['A'], ['B']] := by
  rw [scen_scored]
  unfold rankRecords aboveThreshold sortedScores
  rw [List.mergeSort_of_sorted scen_pairwise]
  norm_num [List.filter, Score.geRat, simKey]

/-- C1: on a nonempty store, retrieval returns the ranked texts — at most
`RETRIEVAL_TOP_K` of them, every ranked item passing the
`>= RETRIEVAL_THRESHOLD` filter, the ranking sorted descending by
similarity with ties broken by source insertion order (`sortLE`), over a
permutation of the scored records; and on the Scenario E store (records
with similarities 0.9, 0.7, 0.4, 0.3) with threshold 0.5 and top-K 3,
exactly the first two records are returned, in that order. -/
theorem retrieve_contract :
    (∀ (records : List EmbeddedKnowledgeRecord) (queryEmbedding : List ℚ),
      records ≠ [] →
      knowledgeRetrievalProcess records queryEmbedding =
        Except.ok (rankRecords KNOWLEDGE_CONFIG.RETRIEVAL_THRESHOLD
          KNOWLEDGE_CONFIG.RETRIEVAL_TOP_K (scoreRecords queryEmbedding records)) ∧
      (rankRecords KNOWLEDGE_CONFIG.RETRIEVAL_THRESHOLD
        KNOWLEDGE_CONFIG.RETRIEVAL_TOP_K (scoreRecords queryEmbedding records)).length ≤
          KNOWLEDGE_CONFIG.RETRIEVAL_TOP_K ∧
      (∀ item ∈ aboveThreshold KNOWLEDGE_CONFIG.RETRIEVAL_THRESHOLD
          (scoreRecords queryEmbedding records),
        Score.geRat item.similarity KNOWLEDGE_CONFIG.RETRIEVAL_THRESHOLD = true) ∧
      List.Pairwise (fun a b => sortLE a b = true)
        (aboveThreshold KNOWLEDGE_CONFIG.RETRIEVAL_THRESHOLD
          (scoreRecords queryEmbedding records)) ∧
      (sortedScores (scoreRecords queryEmbedding records)).Perm
        (scoreRecords queryEmbedding records)) ∧
    rankRecords (1/2) 3 (scoreRecords [1, 0, 0, 0] scenRecords) = [['A'], ['B']] := by
  refine ⟨?_, scen_rank⟩
  intro records q hne
  have hlen : ¬ records.length = 0 := by
    simpa [List.length_eq_zero] using hne
  refine ⟨?_, ?_, ?_, ?_, ?_⟩
  · unfold knowledgeRetrievalProcess
    rw [if_neg hlen]
  · unfold rankRecords
    rw [List.length_map, List.length_take]
    exact Nat.min_le_left _ _
  · intro item hmem
    unfold aboveThreshold at hmem
    exact (List.mem_filter.mp hmem).2
  · unfold aboveThreshold sortedScores
    exact (List.sorted_mergeSort sortLE_trans sortLE_total
      (scoreRecords q records)).filter _
  · unfold sortedScores
    exact List.mergeSort_perm (scoreRecords q records) sortLE

/-- Witness for C1 at the Scenario E store: retrieval succeeds and
returns the ranked texts, with the ranking sorted and above threshold. -/
theorem retrieve_contract_witness :
    knowledgeRetrievalProcess scenRecords [1, 0, 0, 0] =
      Except.ok (rankRecords KNOWLEDGE_CONFIG.RETRIEVAL_THRESHOLD
        KNOWLEDGE_CONFIG.RETRIEVAL_TOP_K (scoreRecords [1, 0, 0, 0] scenRecords)) ∧
    List.Pairwise (fun a b => sortLE a b = true)
      (aboveThreshold KNOWLEDGE_CONFIG.RETRIEVAL_THRESHOLD
        (scoreRecords [1, 0, 0, 0] scenRecords)) :=
  ⟨(retrieve_contract.1 scenRecords [1, 0, 0, 0] (List.cons_ne_nil _ _)).1,
   (retrieve_contract.1 scenRecords [1, 0, 0, 0] (List.cons_ne_nil _ _)).2.2.2.1⟩

/-! ### Helper lemmas: crawler invariants -/

/-- The crawl-loop invariant: dispatched URLs are pairwise distinct (no
URL fetched twice), the page count never exceeds `maxPages`, the frontier
is duplicate-free and disjoint from the visited set, and every dispatched
URL was in the visited set when dispatched. -/
def CrawlInv (maxPages : ℕ) (st : CrawlState) : Prop :=
  st.dispatched.Nodup ∧ st.pages.length ≤ maxPages ∧ st.toCrawl.Nodup ∧
  (∀ u ∈ st.toCrawl, u ∉ st.visited) ∧ (∀ u ∈ st.dispatched, u ∈ st.visited)

lemma enqueueLink_inv (a : CrawlState) (link : String) :
    (enqueueLink a link).pages = a.pages ∧
    (enqueueLink a link).visited = a.visited ∧
    (enqueueLink a link).dispatched = a.dispatched ∧
    (a.toCrawl.Nodup → (∀ u ∈ a.toCrawl, u ∉ a.visited) →
      ((enqueueLink a link).toCrawl.Nodup ∧
       ∀ u ∈ (enqueueLink a link).toCrawl, u ∉ (enqueueLink a link).visited)) := by
  unfold enqueueLink
  by_cases h : link ∉ a.visited ∧ link ∉ a.toCrawl
  · rw [if_pos h]
    refine ⟨rfl, rfl, rfl, ?_⟩
    intro h1 h2
    constructor
    · exact List.Nodup.append h1 (List.nodup_singleton link)
        (by intro u hu hl; rw [List.mem_singleton] at hl; subst hl; exact h.2 hu)
    · intro u hu
      rcases List.mem_append.mp hu with hu | hu
      · exact h2 u hu
      · rw [List.mem_singleton] at hu
        subst hu
        exact h.1
  · rw [if_neg h]
    exact ⟨rfl, rfl, rfl, fun h1 h2 => ⟨h1, h2⟩⟩

lemma foldl_enqueue_inv (links : List String) (a : CrawlState) :
    (links.foldl enqueueLink a).pages = a.pages ∧
    (links.foldl enqueueLink a).visited = a.visited ∧
    (links.foldl enqueueLink a).dispatched = a.dispatched ∧
    (a.toCrawl.Nodup → (∀ u ∈ a.toCrawl, u ∉ a.visited) →
      ((links.foldl enqueueLink a).toCrawl.Nodup ∧
       ∀ u ∈ (links.foldl enqueueLink a).toCrawl,
         u ∉ (links.foldl enqueueLink a).visited)) := by
  induction links generalizing a with
  | nil => exact ⟨rfl, rfl, rfl, fun h1 h2 => ⟨h1, h2⟩⟩
  | cons l links ih =>
    obtain ⟨e1, e2, e3, e4⟩ := enqueueLink_inv a l
    obtain ⟨i1, i2, i3, i4⟩ := ih (enqueueLink a l)
    rw [List.foldl_cons]
    refine ⟨i1.trans e1, i2.trans e2, i3.trans e3, ?_⟩
    intro h1 h2
    obtain ⟨n1, n2⟩ := e4 h1 h2
    rw [e2] at n2
    exact i4 n1 (by rw [e2]; exact n2)

lemma processResult_inv (r : FetchResult) (acc : CrawlState) :
    (processResult acc r).visited = acc.visited ∧
    (processResult acc r).dispatched = acc.dispatched ∧
    (processResult acc r).pages.length ≤ acc.pages.length + 1 ∧
    (acc.toCrawl.Nodup → (∀ u ∈ acc.toCrawl, u ∉ acc.visited) →
      ((processResult acc r).toCrawl.Nodup ∧
       ∀ u ∈ (processResult acc r).toCrawl, u ∉ (processResult acc r).visited)) := by
  rcases hp : r.page with _ | p
  · have hpr : processResult acc r = r.links.foldl enqueueLink acc := by
      unfold processResult
      rw [hp]
    rw [hpr]
    obtain ⟨i1, i2, i3, i4⟩ := foldl_enqueue_inv r.links acc
    refine ⟨i2, i3, ?_, i4⟩
    rw [i1]
    omega
  · have hpr : processResult acc r =
        r.links.foldl enqueueLink { acc with pages := acc.pages ++ [p] } := by
      unfold processResult
      rw [hp]
    rw [hpr]
    obtain ⟨i1, i2, i3, i4⟩ :=
      foldl_enqueue_inv r.links { acc with pages := acc.pages ++ [p] }
    refine ⟨i2, i3, ?_, i4⟩
    rw [i1]
    simp

lemma foldl_process_inv (results : List FetchResult) (acc : CrawlState) :
    (results.foldl processResult acc).visited = acc.visited ∧
    (results.foldl processResult acc).dispatched = acc.dispatched ∧
    (results.foldl processResult acc).pages.length ≤
      acc.pages.length + results.length ∧
    (acc.toCrawl.Nodup → (∀ u ∈ acc.toCrawl, u ∉ acc.visited) →
      ((results.foldl processResult acc).toCrawl.Nodup ∧
       ∀ u ∈ (results.foldl processResult acc).toCrawl,
         u ∉ (results.foldl processResult acc).visited)) := by
  induction results generalizing acc with
  | nil => exact ⟨rfl, rfl, by simp, fun h1 h2 => ⟨h1, h2⟩⟩
  | cons r results ih =>
    obtain ⟨e1, e2, e3, e4⟩ := processResult_inv r acc
    obtain ⟨i1, i2, i3, i4⟩ := ih (processResult acc r)
    rw [List.foldl_cons]
    refine ⟨i1.trans e1, i2.trans e2, ?_, ?_⟩
    · rw [List.length_cons]
      omega
    · intro h1 h2
      obtain ⟨n1, n2⟩ := e4 h1 h2
      rw [e1] at n2
      exact i4 n1 (by rw [e1]; exact n2)


lemma crawlStep_inv (fetch : String → FetchResult) (maxPages : ℕ)
    (st : CrawlState) (hguard : st.pages.length < maxPages)
    (hinv : CrawlInv maxPages st) :
    CrawlInv maxPages (crawlStep fetch maxPages st) := by
  obtain ⟨d1, d2, d3, d4, d5⟩ := hinv
  set urlsToProcess :=
    (st.toCrawl.take CONCURRENT_LIMIT).take (maxPages - st.pages.length) with hup
  set init : CrawlState :=
    { pages := st.pages, toCrawl := st.toCrawl.drop CONCURRENT_LIMIT,
      visited := st.visited ++ urlsToProcess,
      dispatched := st.dispatched ++ urlsToProcess } with hinit
  have hstep : crawlStep fetch maxPages st =
      (urlsToProcess.map fetch).foldl processResult init := rfl
  have hupSub : urlsToProcess.Sublist st.toCrawl :=
    List.Sublist.trans (List.take_sublist _ _) (List.take_sublist _ _)
  have hupNodup : urlsToProcess.Nodup := d3.sublist hupSub
  have hupMem : ∀ u ∈ urlsToProcess, u ∈ st.toCrawl := fun u hu => hupSub.mem hu
  have hrestNodup : (st.toCrawl.drop CONCURRENT_LIMIT).Nodup :=
    d3.sublist (List.drop_sublist _ _)
  have htakeDropDisj : ∀ u ∈ st.toCrawl.take CONCURRENT_LIMIT,
      u ∉ st.toCrawl.drop CONCURRENT_LIMIT := by
    have hd := d3
    rw [← List.take_append_drop CONCURRENT_LIMIT st.toCrawl,
      List.nodup_append] at hd
    exact hd.2.2
  have hinitDisj : ∀ u ∈ init.toCrawl, u ∉ init.visited := by
    intro u hu
    simp only [hinit, List.mem_append]
    push_neg
    refine ⟨d4 u (List.mem_of_mem_drop hu), ?_⟩
    intro hu2
    exact htakeDropDisj u ((List.take_sublist _ _).mem hu2) hu
  obtain ⟨f1, f2, f3, f4⟩ := foldl_process_inv (urlsToProcess.map fetch) init
  obtain ⟨n1, n2⟩ := f4 (by simpa [hinit] using hrestNodup) hinitDisj
  rw [hstep]
  refine ⟨?_, ?_, n1, n2, ?_⟩
  · rw [f2]
    simp only [hinit]
    exact List.Nodup.append d1 hupNodup
      (fun u hu hu2 => d4 u (hupMem u hu2) (d5 u hu))
  · have hlen : urlsToProcess.length ≤ maxPages - st.pages.length := by
      rw [hup, List.length_take]
      exact Nat.min_le_left _ _
    have h3 := f3
    rw [List.length_map] at h3
    have hb : init.pages.length = st.pages.length := rfl
    rw [hb] at h3
    omega
  · intro u hu
    rw [f2] at hu
    rw [f1]
    simp only [hinit, List.mem_append] at hu ⊢
    rcases hu with hu | hu
    · exact Or.inl (d5 u hu)
    · exact Or.inr hu

lemma crawlLoop_inv (fetch : String → FetchResult) (maxPages fuel : ℕ)
    (st : CrawlState) (hinv : CrawlInv maxPages st) :
    CrawlInv maxPages (crawlLoop fetch maxPages fuel st).1 := by
  induction fuel generalizing st with
  | zero => exact hinv
  | succ fuel ih =>
    unfold crawlLoop
    by_cases h : st.toCrawl ≠ [] ∧ st.pages.length < maxPages
    · rw [if_pos h]
      exact ih (crawlStep fetch maxPages st) (crawlStep_inv fetch maxPages st h.2 hinv)
    · rw [if_neg h]
      exact hinv

/-- C8: for every completed crawl (loop exited through its own condition
within the given fuel), no URL is fetched more than once (the dispatch
log is duplicate-free), every dispatched URL was added to the visited set
before its fetch was dispatched, the frontier never holds a duplicate or
an already-visited URL, and the number of returned pages never exceeds
`maxPages`. -/
theorem crawl_no_refetch_and_bounded
    (fetch : String → FetchResult) (baseUrl : String) (maxPages fuel : ℕ)
    (hdone : (crawlLinks fetch baseUrl maxPages fuel).2 = true) :
    (crawlLinks fetch baseUrl maxPages fuel).1.dispatched.Nodup ∧
    (crawlLinks fetch baseUrl maxPages fuel).1.pages.length ≤ maxPages ∧
    (∀ u ∈ (crawlLinks fetch baseUrl maxPages fuel).1.dispatched,
      u ∈ (crawlLinks fetch baseUrl maxPages fuel).1.visited) ∧
    (crawlLinks fetch baseUrl maxPages fuel).1.toCrawl.Nodup ∧
    (∀ u ∈ (crawlLinks fetch baseUrl maxPages fuel).1.toCrawl,
      u ∉ (crawlLinks fetch baseUrl maxPages fuel).1.visited) := by
  have h0 : CrawlInv maxPages
      { pages := [], toCrawl := [baseUrl], visited := [], dispatched := [] } := by
    refine ⟨List.nodup_nil, by simp, List.nodup_singleton _, ?_, by simp⟩
    intro u _
    exact List.not_mem_nil u
  obtain ⟨i1, i2, i3, i4, i5⟩ := crawlLoop_inv fetch maxPages fuel _ h0
  exact ⟨i1, i2, i5, i3, i4⟩

/-- A two-page documentation site used as a concrete crawl input. -/
def tinyFetch : String → FetchResult := fun u =>
  if u = "a" then ⟨some ⟨"a", "ta", []⟩, ["b", "c", "a"]⟩
  else if u = "b" then ⟨some ⟨"b", "tb", []⟩, ["a", "c"]⟩
  else ⟨none, []⟩

/-- Witness for C8 on the concrete two-page site: the crawl completes and
the guarantees hold at its final state. -/
theorem crawl_no_refetch_and_bounded_witness :
    (crawlLinks tinyFetch "a" 10 5).1.dispatched.Nodup ∧
    (crawlLinks tinyFetch "a" 10 5).1.pages.length ≤ 10 ∧
    (∀ u ∈ (crawlLinks tinyFetch "a" 10 5).1.dispatched,
      u ∈ (crawlLinks tinyFetch "a" 10 5).1.visited) ∧
    (crawlLinks tinyFetch "a" 10 5).1.toCrawl.Nodup ∧
    (∀ u ∈ (crawlLinks tinyFetch "a" 10 5).1.toCrawl,
      u ∉ (crawlLinks tinyFetch "a" 10 5).1.visited) :=
  crawl_no_refetch_and_bounded tinyFetch "a" 10 5 (by decide)

/-! ### Helper definitions and lemmas: sentence shapes -/

/-- Every character of `s` is outside the terminator class `[.!?]`. -/
def allNonTerm (s : Str) : Prop := ∀ c ∈ s, sentTerm c = false

/-- Every character of `s` is a sentence terminator. -/
def allTerm (s : Str) : Prop := ∀ c ∈ s, sentTerm c = true

/-- The shape of a regex match: a nonempty run of non-terminators
followed by a nonempty run of terminators. -/
def SentenceShape (s : Str) : Prop :=
  ∃ r t, s = r ++ t ∧ r ≠ [] ∧ t ≠ [] ∧ allNonTerm r ∧ allTerm t

/-- A (possibly empty) run of non-terminators followed by a (possibly
empty) run of terminators. -/
def NTsh (s : Str) : Prop := ∃ a b, s = a ++ b ∧ allNonTerm a ∧ allTerm b

/-- A (possibly empty) run of terminators followed by a (possibly empty)
run of non-terminators. -/
def TNsh (s : Str) : Prop := ∃ a b, s = a ++ b ∧ allTerm a ∧ allNonTerm b

lemma allTerm_nil : allTerm [] := fun c hc => absurd hc (List.not_mem_nil c)

lemma allNonTerm_nil : allNonTerm [] := fun c hc => absurd hc (List.not_mem_nil c)

lemma allTerm_snoc {b : Str} {c : Char} (hb : allTerm b) (hc : sentTerm c = true) :
    allTerm (b ++ [c]) := by
  intro x hx
  rcases List.mem_append.mp hx with hx | hx
  · exact hb x hx
  · rw [List.mem_singleton] at hx
    subst hx
    exact hc

lemma allNonTerm_snoc {b : Str} {c : Char} (hb : allNonTerm b) (hc : sentTerm c = false) :
    allNonTerm (b ++ [c]) := by
  intro x hx
  rcases List.mem_append.mp hx with hx | hx
  · exact hb x hx
  · rw [List.mem_singleton] at hx
    subst hx
    exact hc

lemma allTerm_cons {b : Str} {c : Char} (hb : allTerm b) (hc : sentTerm c = true) :
    allTerm (c :: b) := by
  intro x hx
  rcases List.mem_cons.mp hx with hx | hx
  · subst hx
    exact hc
  · exact hb x hx

lemma allNonTerm_cons {b : Str} {c : Char} (hb : allNonTerm b) (hc : sentTerm c = false) :
    allNonTerm (c :: b) := by
  intro x hx
  rcases List.mem_cons.mp hx with hx | hx
  · subst hx
    exact hc
  · exact hb x hx

lemma allNonTerm_single {c : Char} (hc : sentTerm c = false) : allNonTerm [c] :=
  allNonTerm_cons allNonTerm_nil hc

/-- The full behaviour of the sentence-matcher fold from any well-formed
intermediate state: the produced matches extend the completed output, and
the pending text `run ++ terms` together with the remaining input splits
as dropped leading terminators, the concatenated matches, and dropped
unterminated trailing text. -/
lemma sent_fold_spec (cs : Str) : ∀ (out : List Str) (run terms : Str),
    allNonTerm run → allTerm terms → (terms ≠ [] → run ≠ []) →
    ∃ (ss : List Str) (lead trail : Str),
      ((cs.foldl sentStepFold (out, run, terms)).1 ++
        (if (cs.foldl sentStepFold (out, run, terms)).2.2 ≠ [] then
          [(cs.foldl sentStepFold (out, run, terms)).2.1 ++
            (cs.foldl sentStepFold (out, run, terms)).2.2]
         else []) = out ++ ss) ∧
      run ++ (terms ++ cs) = lead ++ (ss.flatten ++ trail) ∧
      allTerm lead ∧ allNonTerm trail ∧ (run ≠ [] → lead = []) ∧
      (∀ s ∈ ss, SentenceShape s) := by
  induction cs with
  | nil =>
    intro out run terms hrun hterms hne
    by_cases ht : terms = []
    · refine ⟨[], [], run, ?_, ?_, allTerm_nil, hrun, fun _ => rfl, ?_⟩
      · simp [List.foldl_nil, ht]
      · simp [ht]
      · intro s hs
        exact absurd hs (List.not_mem_nil s)
    · refine ⟨[run ++ terms], [], [], ?_, ?_, allTerm_nil, allNonTerm_nil,
        fun _ => rfl, ?_⟩
      · simp [List.foldl_nil, ht]
      · simp
      · intro s hs
        rw [List.mem_singleton] at hs
        subst hs
        exact ⟨run, terms, rfl, hne ht, ht, hrun, hterms⟩
  | cons c cs ih =>
    intro out run terms hrun hterms hne
    by_cases hc : sentTerm c = true
    · by_cases hr : run = []
      · have ht : terms = [] := by
          by_contra h
          exact hne h hr
        have hstep : sentStepFold (out, run, terms) c = (out, run, terms) := by
          simp [sentStepFold, hc, hr]
        rw [List.foldl_cons, hstep]
        obtain ⟨ss, lead, trail, g1, g2, g3, g4, _, g6⟩ :=
          ih out run terms hrun hterms hne
        refine ⟨ss, c :: lead, trail, g1, ?_, allTerm_cons g3 hc, g4, ?_, g6⟩
        · subst hr
          subst ht
          simp only [List.nil_append] at g2 ⊢
          rw [g2]
          rfl
        · intro h
          exact absurd hr h
      · have hstep : sentStepFold (out, run, terms) c = (out, run, terms ++ [c]) := by
          simp [sentStepFold, hc, hr]
        rw [List.foldl_cons, hstep]
        obtain ⟨ss, lead, trail, g1, g2, g3, g4, g5, g6⟩ :=
          ih out run (terms ++ [c]) hrun (allTerm_snoc hterms hc) (fun _ => hr)
        refine ⟨ss, lead, trail, g1, ?_, g3, g4, g5, g6⟩
        rw [← g2]
        simp
    · have hcf : sentTerm c = false := by
        rwa [Bool.not_eq_true] at hc
      by_cases ht : terms = []
      · have hstep : sentStepFold (out, run, terms) c = (out, run ++ [c], []) := by
          simp [sentStepFold, hcf, ht]
        rw [List.foldl_cons, hstep]
        obtain ⟨ss, lead, trail, g1, g2, g3, g4, g5, g6⟩ :=
          ih out (run ++ [c]) [] (allNonTerm_snoc hrun hcf) allTerm_nil
            (fun h => absurd rfl h)
        have hlead : lead = [] := g5 (by simp)
        subst hlead
        refine ⟨ss, [], trail, g1, ?_, allTerm_nil, g4, fun _ => rfl, g6⟩
        rw [← g2]
        subst ht
        simp
      · have hstep : sentStepFold (out, run, terms) c =
            (out ++ [run ++ terms], [c], []) := by
          simp [sentStepFold, hcf, ht]
        rw [List.foldl_cons, hstep]
        obtain ⟨ss, lead, trail, g1, g2, g3, g4, g5, g6⟩ :=
          ih (out ++ [run ++ terms]) [c] [] (allNonTerm_single hcf) allTerm_nil
            (fun h => absurd rfl h)
        have hlead : lead = [] := g5 (by simp)
        subst hlead
        refine ⟨(run ++ terms) :: ss, [], trail, ?_, ?_, allTerm_nil, g4,
          fun _ => rfl, ?_⟩
        · rw [g1]
          simp
        · simp only [List.nil_append] at g2
          simp only [List.flatten_cons, List.nil_append, List.append_assoc]
          rw [← g2]
          simp
        · intro s hs
          rcases List.mem_cons.mp hs with hs | hs
          · subst hs
            exact ⟨run, terms, rfl, hne ht, ht, hrun, hterms⟩
          · exact g6 s hs

/-- Decomposition of an arbitrary text by the sentence matcher: a dropped
leading terminator run, the concatenated matches (each a nonempty
non-terminator run followed by a nonempty terminator run), and dropped
trailing text containing no terminator. -/
lemma splitSentences_decomp (cs : Str) :
    ∃ lead trail,
      cs = lead ++ ((splitSentences cs).flatten ++ trail) ∧
      allTerm lead ∧ allNonTerm trail ∧
      ∀ s ∈ splitSentences cs, SentenceShape s := by
  obtain ⟨ss, lead, trail, g1, g2, g3, g4, _, g6⟩ :=
    sent_fold_spec cs [] [] [] allNonTerm_nil allTerm_nil (fun h => absurd rfl h)
  have hss : splitSentences cs = ss := by
    simpa [splitSentences] using g1
  simp only [List.nil_append] at g2
  exact ⟨lead, trail, by rw [hss, ← g2], g3, g4, by rw [hss]; exact g6⟩

lemma foldl_sent_allNonTerm (a : Str) (ha : allNonTerm a) :
    ∀ (out : List Str) (run : Str),
    a.foldl sentStepFold (out, run, []) = (out, run ++ a, []) := by
  induction a with
  | nil => intro out run; simp
  | cons c a iha =>
    intro out run
    have hc : sentTerm c = false := ha c (List.mem_cons_self c a)
    have hstep : sentStepFold (out, run, []) c = (out, run ++ [c], []) := by
      simp [sentStepFold, hc]
    rw [List.foldl_cons, hstep,
      iha (fun x hx => ha x (List.mem_cons_of_mem c hx)) out (run ++ [c])]
    simp

lemma foldl_sent_allTerm_ne (b : Str) (hb : allTerm b) :
    ∀ (out : List Str) (run terms : Str), run ≠ [] →
    b.foldl sentStepFold (out, run, terms) = (out, run, terms ++ b) := by
  induction b with
  | nil => intro out run terms _; simp
  | cons c b ihb =>
    intro out run terms hr
    have hc : sentTerm c = true := hb c (List.mem_cons_self c b)
    have hstep : sentStepFold (out, run, terms) c = (out, run, terms ++ [c]) := by
      simp [sentStepFold, hc, hr]
    rw [List.foldl_cons, hstep,
      ihb (fun x hx => hb x (List.mem_cons_of_mem c hx)) out run (terms ++ [c]) hr]
    simp

lemma foldl_sent_allTerm_nil (b : Str) (hb : allTerm b) :
    ∀ (out : List Str),
    b.foldl sentStepFold (out, [], []) = (out, [], []) := by
  induction b with
  | nil => intro out; simp
  | cons c b ihb =>
    intro out
    have hc : sentTerm c = true := hb c (List.mem_cons_self c b)
    have hstep : sentStepFold (out, [], []) c = (out, [], []) := by
      simp [sentStepFold, hc]
    rw [List.foldl_cons, hstep, ihb (fun x hx => hb x (List.mem_cons_of_mem c hx)) out]

lemma splitSentences_of_NT_full (a b : Str) (ha : allNonTerm a) (hb : allTerm b)
    (hane : a ≠ []) (hbne : b ≠ []) : splitSentences (a ++ b) = [a ++ b] := by
  unfold splitSentences
  rw [List.foldl_append, foldl_sent_allNonTerm a ha [] [],
    foldl_sent_allTerm_ne b hb [] ([] ++ a) [] (by simpa using hane)]
  simp [hbne]

lemma splitSentences_of_allNonTerm (a : Str) (ha : allNonTerm a) :
    splitSentences a = [] := by
  unfold splitSentences
  rw [foldl_sent_allNonTerm a ha [] []]
  simp

lemma splitSentences_of_TN (a b : Str) (ha : allTerm a) (hb : allNonTerm b) :
    splitSentences (a ++ b) = [] := by
  unfold splitSentences
  rw [List.foldl_append, foldl_sent_allTerm_nil a ha [],
    foldl_sent_allNonTerm b hb [] []]
  simp

lemma splitSentences_of_allTerm (b : Str) (hb : allTerm b) :
    splitSentences b = [] := by
  have := splitSentences_of_TN b [] hb allNonTerm_nil
  simpa using this

/-- For a word-shaped string (one class change at most), the chunker's
sentence list is the string itself: either the matcher matches the whole
string, or it matches nothing and the `|| [text]` fallback applies. -/
lemma sentencesOf_of_wordShape (w : Str) (h : NTsh w ∨ TNsh w) :
    sentencesOf w = [w] := by
  have hsplit : splitSentences w = [] ∨ splitSentences w = [w] := by
    rcases h with ⟨a, b, rfl, ha, hb⟩ | ⟨a, b, rfl, ha, hb⟩
    · by_cases hane : a = []
      · subst hane
        simp only [List.nil_append]
        exact Or.inl (splitSentences_of_allTerm b hb)
      · by_cases hbne : b = []
        · subst hbne
          simp only [List.append_nil]
          exact Or.inl (splitSentences_of_allNonTerm a ha)
        · exact Or.inr (splitSentences_of_NT_full a b ha hb hane hbne)
    · exact Or.inl (splitSentences_of_TN a b ha hb)
  rcases hsplit with h1 | h1 <;> · unfold sentencesOf; rw [h1]

/-! ### Helper lemmas: word splitting -/

lemma splitOnSpace_nil : splitOnSpace [] = [[]] := rfl

lemma splitOnSpace_cons (c : Char) (s : Str) :
    splitOnSpace (c :: s) = spaceSplitStep c (splitOnSpace s) := rfl

lemma splitOnSpace_ne_nil (s : Str) : splitOnSpace s ≠ [] := by
  induction s with
  | nil => simp [splitOnSpace_nil]
  | cons c s ih =>
    rw [splitOnSpace_cons]
    rcases hs : splitOnSpace s with _ | ⟨w, ws⟩
    · exact absurd hs ih
    · by_cases hc : c = ' ' <;> simp [spaceSplitStep, hc]

lemma splitOnSpace_no_space (s : Str) : ∀ w ∈ splitOnSpace s, ' ' ∉ w := by
  induction s with
  | nil =>
    intro w hw
    rw [splitOnSpace_nil, List.mem_singleton] at hw
    subst hw
    exact List.not_mem_nil ' '
  | cons c s ih =>
    intro w hw
    rw [splitOnSpace_cons] at hw
    rcases hs : splitOnSpace s with _ | ⟨w0, ws⟩
    · exact absurd hs (splitOnSpace_ne_nil s)
    · rw [hs] at hw
      by_cases hc : c = ' '
      · simp only [spaceSplitStep, hc, if_pos rfl] at hw
        rcases List.mem_cons.mp hw with hw | hw
        · subst hw
          exact List.not_mem_nil ' '
        · exact ih w (by rw [hs]; exact hw)
      · simp only [spaceSplitStep, if_neg hc] at hw
        rcases List.mem_cons.mp hw with hw | hw
        · subst hw
          intro hmem
          rcases List.mem_cons.mp hmem with h | h
          · exact hc h.symm
          · exact ih w0 (by rw [hs]; exact List.mem_cons_self w0 ws) h
        · exact ih w (by rw [hs]; exact List.mem_cons_of_mem w0 hw)

lemma splitOnSpace_of_no_space (s : Str) (h : ' ' ∉ s) : splitOnSpace s = [s] := by
  induction s with
  | nil => rfl
  | cons c s ih =>
    have hc : ¬ c = ' ' := fun he => h (by rw [he]; exact List.mem_cons_self ' ' s)
    rw [splitOnSpace_cons, ih (fun hm => h (List.mem_cons_of_mem c hm))]
    simp [spaceSplitStep, hc]

lemma splitOnSpace_words_allNonTerm (s : Str) (hs : allNonTerm s) :
    ∀ w ∈ splitOnSpace s, allNonTerm w := by
  induction s with
  | nil =>
    intro w hw
    rw [splitOnSpace_nil, List.mem_singleton] at hw
    subst hw
    exact allNonTerm_nil
  | cons c s ih =>
    intro w hw
    have hc : sentTerm c = false := hs c (List.mem_cons_self c s)
    have hs' : allNonTerm s := fun x hx => hs x (List.mem_cons_of_mem c hx)
    rw [splitOnSpace_cons] at hw
    rcases hsplit : splitOnSpace s with _ | ⟨w0, ws⟩
    · exact absurd hsplit (splitOnSpace_ne_nil s)
    · rw [hsplit] at hw
      by_cases hsp : c = ' '
      · simp only [spaceSplitStep, hsp, if_pos rfl] at hw
        rcases List.mem_cons.mp hw with hw | hw
        · subst hw
          exact allNonTerm_nil
        · exact ih hs' w (by rw [hsplit]; exact hw)
      · simp only [spaceSplitStep, if_neg hsp] at hw
        rcases List.mem_cons.mp hw with hw | hw
        · subst hw
          exact allNonTerm_cons
            (ih hs' w0 (by rw [hsplit]; exact List.mem_cons_self w0 ws)) hc
        · exact ih hs' w (by rw [hsplit]; exact List.mem_cons_of_mem w0 hw)

lemma sentTerm_ne_space {c : Char} (hc : sentTerm c = true) : ¬ c = ' ' := by
  intro he
  subst he
  simp [sentTerm] at hc

lemma allTerm_no_space {b : Str} (hb : allTerm b) : ' ' ∉ b :=
  fun hm => sentTerm_ne_space (hb ' ' hm) rfl

/-- Words of an `NTsh` string are `NTsh` (the terminator run, being
space-free, lies entirely in the last word). -/
lemma splitOnSpace_words_NT (a b : Str) (ha : allNonTerm a) (hb : allTerm b) :
    ∀ w ∈ splitOnSpace (a ++ b), NTsh w := by
  induction a with
  | nil =>
    intro w hw
    simp only [List.nil_append] at hw
    rw [splitOnSpace_of_no_space b (allTerm_no_space hb), List.mem_singleton] at hw
    subst hw
    exact ⟨[], w, rfl, allNonTerm_nil, hb⟩
  | cons c a ih =>
    intro w hw
    have hc : sentTerm c = false := ha c (List.mem_cons_self c a)
    have ha' : allNonTerm a := fun x hx => ha x (List.mem_cons_of_mem c hx)
    rw [List.cons_append, splitOnSpace_cons] at hw
    rcases hsplit : splitOnSpace (a ++ b) with _ | ⟨w0, ws⟩
    · exact absurd hsplit (splitOnSpace_ne_nil _)
    · rw [hsplit] at hw
      by_cases hsp : c = ' '
      · simp only [spaceSplitStep, hsp, if_pos rfl] at hw
        rcases List.mem_cons.mp hw with hw | hw
        · subst hw
          exact ⟨[], [], rfl, allNonTerm_nil, allTerm_nil⟩
        · exact ih ha' w (by rw [hsplit]; exact hw)
      · simp only [spaceSplitStep, if_neg hsp] at hw
        rcases List.mem_cons.mp hw with hw | hw
        · subst hw
          obtain ⟨a0, b0, he, ha0, hb0⟩ :=
            ih ha' w0 (by rw [hsplit]; exact List.mem_cons_self w0 ws)
          exact ⟨c :: a0, b0, by rw [he, List.cons_append], allNonTerm_cons ha0 hc, hb0⟩
        · exact ih ha' w (by rw [hsplit]; exact List.mem_cons_of_mem w0 hw)

/-- Words of a `TNsh` string are `TNsh` (the terminator run, being
space-free, lies entirely in the first word). -/
lemma splitOnSpace_words_TN (a b : Str) (ha : allTerm a) (hb : allNonTerm b) :
    ∀ w ∈ splitOnSpace (a ++ b), TNsh w := by
  induction a with
  | nil =>
    intro w hw
    simp only [List.nil_append] at hw
    exact ⟨[], w, rfl, allTerm_nil, splitOnSpace_words_allNonTerm b hb w hw⟩
  | cons c a ih =>
    intro w hw
    have hc : sentTerm c = true := ha c (List.mem_cons_self c a)
    have ha' : allTerm a := fun x hx => ha x (List.mem_cons_of_mem c hx)
    rw [List.cons_append, splitOnSpace_cons] at hw
    rcases hsplit : splitOnSpace (a ++ b) with _ | ⟨w0, ws⟩
    · exact absurd hsplit (splitOnSpace_ne_nil _)
    · rw [hsplit] at hw
      simp only [spaceSplitStep, if_neg (sentTerm_ne_space hc)] at hw
      rcases List.mem_cons.mp hw with hw | hw
      · subst hw
        obtain ⟨a0, b0, he, ha0, hb0⟩ :=
          ih ha' w0 (by rw [hsplit]; exact List.mem_cons_self w0 ws)
        exact ⟨c :: a0, b0, by rw [he, List.cons_append], allTerm_cons ha0 hc, hb0⟩
      · exact ih ha' w (by rw [hsplit]; exact List.mem_cons_of_mem w0 hw)

/-! ### Helper lemmas: trimming -/

lemma dropWhile_twice (p : Char → Bool) (l : Str) :
    (l.dropWhile p).dropWhile p = l.dropWhile p := by
  induction l with
  | nil => rfl
  | cons c l ih =>
    by_cases hc : p c
    · rw [List.dropWhile_cons_of_pos hc, ih]
    · rw [List.dropWhile_cons_of_neg hc, List.dropWhile_cons_of_neg hc]

lemma dropWhile_self_of_append (p : Char → Bool) (w t : Str)
    (hl : (w ++ t).dropWhile p = w ++ t) : w.dropWhile p = w := by
  cases w with
  | nil => rfl
  | cons x w' =>
    have hx : ¬ p x = true := by
      intro h
      rw [List.cons_append, List.dropWhile_cons_of_pos h] at hl
      have hlen := congrArg List.length hl
      have hle := List.Sublist.length_le
        (List.dropWhile_sublist (l := w' ++ t) (p := p))
      simp only [List.length_cons] at hlen
      omega
    rw [List.dropWhile_cons_of_neg hx]

lemma trimL_eq_dropWhile_self (s : Str) :
    (trimL s).dropWhile isWsChar = trimL s := by
  obtain ⟨t', ht'⟩ := List.dropWhile_suffix (l := (s.dropWhile isWsChar).reverse)
    (p := isWsChar)
  have hrev := congrArg List.reverse ht'
  rw [List.reverse_append, List.reverse_reverse] at hrev
  exact dropWhile_self_of_append isWsChar (trimL s) t'.reverse
    (by rw [show trimL s ++ t'.reverse = s.dropWhile isWsChar from hrev]
        exact dropWhile_twice _ _)

lemma trimL_idem (s : Str) : trimL (trimL s) = trimL s := by
  have hA : (trimL s).reverse.dropWhile isWsChar = (trimL s).reverse := by
    have hr : (trimL s).reverse =
        (s.dropWhile isWsChar).reverse.dropWhile isWsChar := by
      unfold trimL
      rw [List.reverse_reverse]
    rw [hr, dropWhile_twice]
  have hdef : trimL (trimL s) =
      (((trimL s).dropWhile isWsChar).reverse.dropWhile isWsChar).reverse := rfl
  rw [hdef, trimL_eq_dropWhile_self s, hA, List.reverse_reverse]

lemma trimL_sublist (s : Str) : (trimL s).Sublist s := by
  have h2 : ((s.dropWhile isWsChar).reverse.dropWhile isWsChar).Sublist
      (s.dropWhile isWsChar).reverse := List.dropWhile_sublist _
  have h3 := h2.reverse
  rw [List.reverse_reverse] at h3
  exact h3.trans (List.dropWhile_sublist _)

lemma trimL_length_le (s : Str) : (trimL s).length ≤ s.length :=
  (trimL_sublist s).length_le

lemma not_mem_trimL {s : Str} {x : Char} (h : x ∉ s) : x ∉ trimL s :=
  fun hm => h ((trimL_sublist s).mem hm)

lemma allTerm_of_sublist {a b : Str} (h : a.Sublist b) (hb : allTerm b) :
    allTerm a := fun x hx => hb x (h.mem hx)

lemma allNonTerm_of_sublist {a b : Str} (h : a.Sublist b) (hb : allNonTerm b) :
    allNonTerm a := fun x hx => hb x (h.mem hx)

lemma allTerm_reverse {a : Str} (h : allTerm a) : allTerm a.reverse :=
  fun x hx => h x (List.mem_reverse.mp hx)

lemma allNonTerm_reverse {a : Str} (h : allNonTerm a) : allNonTerm a.reverse :=
  fun x hx => h x (List.mem_reverse.mp hx)

lemma NTsh_reverse {s : Str} (h : NTsh s) : TNsh s.reverse := by
  obtain ⟨a, b, rfl, ha, hb⟩ := h
  exact ⟨b.reverse, a.reverse, by rw [List.reverse_append],
    allTerm_reverse hb, allNonTerm_reverse ha⟩

lemma TNsh_reverse {s : Str} (h : TNsh s) : NTsh s.reverse := by
  obtain ⟨a, b, rfl, ha, hb⟩ := h
  exact ⟨b.reverse, a.reverse, by rw [List.reverse_append],
    allNonTerm_reverse hb, allTerm_reverse ha⟩

lemma NTsh_dropWhile (p : Char → Bool) {s : Str} (h : NTsh s) :
    NTsh (s.dropWhile p) := by
  obtain ⟨a, b, rfl, ha, hb⟩ := h
  rw [List.dropWhile_append]
  by_cases he : (a.dropWhile p).isEmpty
  · rw [if_pos he]
    exact ⟨[], b.dropWhile p, rfl, allNonTerm_nil,
      allTerm_of_sublist (List.dropWhile_sublist _) hb⟩
  · rw [if_neg he]
    exact ⟨a.dropWhile p, b, rfl,
      allNonTerm_of_sublist (List.dropWhile_sublist _) ha, hb⟩

lemma TNsh_dropWhile (p : Char → Bool) {s : Str} (h : TNsh s) :
    TNsh (s.dropWhile p) := by
  obtain ⟨a, b, rfl, ha, hb⟩ := h
  rw [List.dropWhile_append]
  by_cases he : (a.dropWhile p).isEmpty
  · rw [if_pos he]
    exact ⟨[], b.dropWhile p, rfl, allTerm_nil,
      allNonTerm_of_sublist (List.dropWhile_sublist _) hb⟩
  · rw [if_neg he]
    exact ⟨a.dropWhile p, b, rfl,
      allTerm_of_sublist (List.dropWhile_sublist _) ha, hb⟩

lemma NTsh_trimL {s : Str} (h : NTsh s) : NTsh (trimL s) :=
  TNsh_reverse (TNsh_dropWhile _ (NTsh_reverse (NTsh_dropWhile _ h)))

lemma TNsh_trimL {s : Str} (h : TNsh s) : TNsh (trimL s) :=
  NTsh_reverse (NTsh_dropWhile _ (TNsh_reverse (TNsh_dropWhile _ h)))

/-! ### Helper lemmas: the chunk invariant -/

/-- A string that is a single word (or a space-joined pack cut from one
sentence): contains no space and has at most one class change between
non-terminators and terminators. -/
def WordLike (w : Str) : Prop := ' ' ∉ w ∧ (NTsh w ∨ TNsh w)

/-- Invariant of the running accumulators (`currentChunk` / `tempChunk`):
within the limit, or a single oversized word. -/
def GoodPart (m : ℕ) (t : Str) : Prop := t.length ≤ m ∨ WordLike t

/-- Invariant of every produced chunk: it is trimmed, and fits the limit
unless it is a single oversized word. -/
def GoodChunk (m : ℕ) (c : Str) : Prop :=
  trimL c = c ∧ (c.length ≤ m ∨ WordLike c)

lemma WordLike_trimL {w : Str} (h : WordLike w) : WordLike (trimL w) := by
  refine ⟨not_mem_trimL h.1, ?_⟩
  rcases h.2 with h2 | h2
  · exact Or.inl (NTsh_trimL h2)
  · exact Or.inr (TNsh_trimL h2)

lemma goodPart_trim {m : ℕ} {t : Str} (h : GoodPart m t) : GoodChunk m (trimL t) := by
  refine ⟨trimL_idem t, ?_⟩
  rcases h with h | h
  · exact Or.inl (le_trans (trimL_length_le t) h)
  · exact Or.inr (WordLike_trimL h)

lemma wordFold_inv (m : ℕ) (words : List Str)
    (hw : ∀ w ∈ words, WordLike w) :
    ∀ (chunks : List Str) (temp : Str),
      (∀ c ∈ chunks, GoodChunk m c) → GoodPart m temp →
      (∀ c ∈ (words.foldl (wordStep m) (chunks, temp)).1, GoodChunk m c) ∧
      GoodPart m (words.foldl (wordStep m) (chunks, temp)).2 := by
  induction words with
  | nil => exact fun chunks temp hc ht => ⟨hc, ht⟩
  | cons w words ih =>
    intro chunks temp hc ht
    have hww : WordLike w := hw w (List.mem_cons_self w words)
    have hw' : ∀ x ∈ words, WordLike x := fun x hx => hw x (List.mem_cons_of_mem w hx)
    rw [List.foldl_cons]
    by_cases hfit : (temp ++ ' ' :: w).length ≤ m
    · have hstep : wordStep m (chunks, temp) w =
          (chunks, if temp ≠ [] then temp ++ ' ' :: w else w) := by
        simp only [wordStep]
        rw [if_pos hfit]
      rw [hstep]
      refine ih hw' chunks _ hc ?_
      by_cases htemp : temp ≠ []
      · rw [if_pos htemp]
        exact Or.inl hfit
      · rw [if_neg htemp]
        refine Or.inl ?_
        have : (temp ++ ' ' :: w).length = temp.length + (w.length + 1) := by
          simp
        omega
    · have hstep : wordStep m (chunks, temp) w =
          ((if temp ≠ [] then chunks ++ [trimL temp] else chunks), w) := by
        simp only [wordStep]
        rw [if_neg hfit]
      rw [hstep]
      refine ih hw' _ w ?_ (Or.inr hww)
      by_cases htemp : temp ≠ []
      · rw [if_pos htemp]
        intro c hcm
        rcases List.mem_append.mp hcm with hcm | hcm
        · exact hc c hcm
        · rw [List.mem_singleton] at hcm
          subst hcm
          exact goodPart_trim ht
      · rw [if_neg htemp]
        exact hc

lemma sentFold_inv (m : ℕ) (sents : List Str)
    (hs : ∀ s ∈ sents, NTsh s ∨ TNsh s) :
    ∀ (chunks : List Str) (cur : Str),
      (∀ c ∈ chunks, GoodChunk m c) → GoodPart m cur →
      (∀ c ∈ (sents.foldl (sentenceStep m) (chunks, cur)).1, GoodChunk m c) ∧
      GoodPart m (sents.foldl (sentenceStep m) (chunks, cur)).2 := by
  induction sents with
  | nil => exact fun chunks cur hc hcur => ⟨hc, hcur⟩
  | cons s sents ih =>
    intro chunks cur hc hcur
    have hss : NTsh s ∨ TNsh s := hs s (List.mem_cons_self s sents)
    have hs' : ∀ x ∈ sents, NTsh x ∨ TNsh x :=
      fun x hx => hs x (List.mem_cons_of_mem s hx)
    rw [List.foldl_cons]
    by_cases hfit : (cur ++ s).length ≤ m
    · have hstep : sentenceStep m (chunks, cur) s = (chunks, cur ++ s) := by
        simp only [sentenceStep]
        rw [if_pos hfit]
      rw [hstep]
      exact ih hs' chunks (cur ++ s) hc (Or.inl hfit)
    · have hchunks1 : ∀ c ∈ (if cur ≠ [] then chunks ++ [trimL cur] else chunks),
          GoodChunk m c := by
        by_cases hcurne : cur ≠ []
        · rw [if_pos hcurne]
          intro c hcm
          rcases List.mem_append.mp hcm with hcm | hcm
          · exact hc c hcm
          · rw [List.mem_singleton] at hcm
            subst hcm
            exact goodPart_trim hcur
        · rw [if_neg hcurne]
          exact hc
      by_cases hlong : m < s.length
      · have hstep : sentenceStep m (chunks, cur) s =
            (((splitOnSpace s).foldl (wordStep m)
                ((if cur ≠ [] then chunks ++ [trimL cur] else chunks), [])).1,
             if ((splitOnSpace s).foldl (wordStep m)
                ((if cur ≠ [] then chunks ++ [trimL cur] else chunks), [])).2 ≠ []
             then ((splitOnSpace s).foldl (wordStep m)
                ((if cur ≠ [] then chunks ++ [trimL cur] else chunks), [])).2
             else cur) := by
          simp only [sentenceStep]
          rw [if_neg hfit, if_pos hlong]
        rw [hstep]
        have hwords : ∀ w ∈ splitOnSpace s, WordLike w := by
          intro w hwm
          refine ⟨splitOnSpace_no_space s w hwm, ?_⟩
          rcases hss with ⟨a, b, rfl, ha, hb⟩ | ⟨a, b, rfl, ha, hb⟩
          · exact Or.inl (splitOnSpace_words_NT a b ha hb w hwm)
          · exact Or.inr (splitOnSpace_words_TN a b ha hb w hwm)
        obtain ⟨w1, w2⟩ := wordFold_inv m (splitOnSpace s) hwords
          (if cur ≠ [] then chunks ++ [trimL cur] else chunks) [] hchunks1
          (Or.inl (by simp))
        refine (ih hs' _ _ w1 ?_)
        by_cases hinner : ((splitOnSpace s).foldl (wordStep m)
            ((if cur ≠ [] then chunks ++ [trimL cur] else chunks), [])).2 ≠ []
        · rw [if_pos hinner]
          exact w2
        · rw [if_neg hinner]
          exact hcur
      · have hstep : sentenceStep m (chunks, cur) s =
            ((if cur ≠ [] then chunks ++ [trimL cur] else chunks), s) := by
          simp only [sentenceStep]
          rw [if_neg hfit, if_neg hlong]
        rw [hstep]
        refine ih hs' _ s hchunks1 (Or.inl ?_)
        omega

/-- Every sentence handed to the chunker's accumulation loop is either a
regex match (`NTsh` via `SentenceShape`) or, in the no-match fallback,
the whole text, which then has the no-match shape `TNsh`. -/
lemma sentencesOf_shapes (text : Str) :
    ∀ s ∈ sentencesOf text, NTsh s ∨ TNsh s := by
  intro s hsm
  obtain ⟨lead, trail, hdec, hlead, htrail, hshapes⟩ := splitSentences_decomp text
  unfold sentencesOf at hsm
  rcases hsplit : splitSentences text with _ | ⟨s1, ss⟩
  · rw [hsplit] at hsm
    simp only [List.mem_singleton] at hsm
    subst hsm
    rw [hsplit] at hdec
    simp only [List.flatten_nil, List.nil_append] at hdec
    exact Or.inr ⟨lead, trail, hdec, hlead, htrail⟩
  · rw [hsplit] at hsm
    obtain ⟨r, t, heq, _, _, hr, ht⟩ := hshapes s (by rw [hsplit]; exact hsm)
    exact Or.inl ⟨r, t, heq, hr, ht⟩

/-- The chunk invariant: every chunk `chunkText` produces is trimmed and
either fits the limit or is a single oversized word. -/
lemma chunkText_good (text : Str) (m : ℕ) :
    ∀ c ∈ chunkText text m, GoodChunk m c := by
  intro c hcm
  unfold chunkText at hcm
  obtain ⟨g1, g2⟩ := sentFold_inv m (sentencesOf text) (sentencesOf_shapes text)
    [] [] (fun c hc => absurd hc (List.not_mem_nil c)) (Or.inl (by simp))
  rcases List.mem_append.mp hcm with hcm | hcm
  · exact g1 c hcm
  · by_cases hne : ((sentencesOf text).foldl (sentenceStep m) ([], [])).2 ≠ []
    · rw [if_pos hne, List.mem_singleton] at hcm
      subst hcm
      exact goodPart_trim g2
    · rw [if_neg hne] at hcm
      exact absurd hcm (List.not_mem_nil c)

/-- C2: every chunk is at most `maxChars` long, except a chunk that is a
single word (it contains no space; word boundaries are never broken)
longer than `maxChars`. -/
theorem chunk_length_bound (text : Str) (maxChars : ℕ) (hm : 0 < maxChars) :
    ∀ c ∈ chunkText text maxChars, c.length ≤ maxChars ∨ ' ' ∉ c := by
  intro c hcm
  rcases (chunkText_good text maxChars c hcm).2 with h | h
  · exact Or.inl h
  · exact Or.inr h.1

/-- Witness for C2 at a concrete text and limit: an oversized single word
is kept intact, the rest fit the limit. -/
theorem chunk_length_bound_witness :
    "cdefgh".toList ∈ chunkText "ab cdefgh ij. Hi.".toList 4 ∧
    ("cdefgh".toList.length ≤ 4 ∨ ' ' ∉ "cdefgh".toList) :=
  ⟨by decide,
    chunk_length_bound "ab cdefgh ij. Hi.".toList 4 (by decide) "cdefgh".toList
      (by decide)⟩

lemma chunkText_nil (m : ℕ) : chunkText [] m = [] := by
  have h1 : sentencesOf ([] : Str) = [[]] := rfl
  unfold chunkText
  rw [h1]
  simp only [List.foldl_cons, List.foldl_nil]
  have h2 : sentenceStep m ([], []) [] = ([], []) := by
    simp only [sentenceStep]
    rw [if_pos (by simp)]
    simp
  rw [h2]
  simp

/-- C6 counterexample: the chunker splits at any terminator (no
whitespace required after it: `"aa.bb."` is split into two sentences, not
kept whole), and non-terminated trailing text is discarded, not treated
as a final sentence (`"Hi. World"` chunks to `["Hi."]`, dropping
`"World"` entirely). -/
theorem sentence_split_counterexample :
    chunkText "Hi. World".toList 600 = ["Hi.".toList] ∧
    chunkText "aa.bb.".toList 4 = ["aa.".toList, "bb.".toList] := by
  decide

/-- C6 (amended): the chunker splits text into sentences as maximal runs
of non-terminators followed by maximal runs of `.`/`!`/`?` — regardless
of what follows the terminator; a leading terminator run and any text
after the last complete sentence are discarded; when no complete sentence
exists, the whole text is treated as one sentence; sentences are then
greedily accumulated while the combined length stays within `maxChars`,
flushing the trimmed running chunk on overflow; empty input yields no
chunks. -/
theorem sentence_split_characterization :
    (∀ cs : Str, ∃ lead trail,
      cs = lead ++ ((splitSentences cs).flatten ++ trail) ∧
      allTerm lead ∧ allNonTerm trail ∧
      ∀ s ∈ splitSentences cs, SentenceShape s) ∧
    (∀ cs : Str, splitSentences cs = [] → sentencesOf cs = [cs]) ∧
    (∀ (m : ℕ) (st : List Str × Str) (s : Str),
      (st.2 ++ s).length ≤ m → sentenceStep m st s = (st.1, st.2 ++ s)) ∧
    (∀ (m : ℕ) (st : List Str × Str) (s : Str),
      ¬ (st.2 ++ s).length ≤ m → s.length ≤ m →
      sentenceStep m st s =
        ((if st.2 ≠ [] then st.1 ++ [trimL st.2] else st.1), s)) ∧
    (∀ m : ℕ, chunkText [] m = []) := by
  refine ⟨splitSentences_decomp, ?_, ?_, ?_, ?_⟩
  · intro cs h
    unfold sentencesOf
    rw [h]
  · intro m st s h
    simp only [sentenceStep]
    rw [if_pos h]
  · intro m st s h1 h2
    simp only [sentenceStep]
    rw [if_neg h1, if_neg (not_lt.mpr h2)]
  · exact chunkText_nil

/-- Witness for the amended C6 at concrete inputs: the no-match fallback
and the two accumulation rules, evaluated. -/
theorem sentence_split_characterization_witness :
    sentencesOf "abc".toList = ["abc".toList] ∧
    sentenceStep 10 ([], "ab".toList) "cd".toList = ([], "abcd".toList) ∧
    sentenceStep 3 (["x".toList], "ab".toList) "cd".toList =
      (["x".toList, "ab".toList], "cd".toList) :=
  ⟨sentence_split_characterization.2.1 "abc".toList (by decide),
   sentence_split_characterization.2.2.1 10 ([], "ab".toList) "cd".toList (by decide),
   by
    have h := sentence_split_characterization.2.2.2.1 3
      (["x".toList], "ab".toList) "cd".toList (by decide) (by decide)
    rw [h]
    decide⟩

/-! ### C9: re-chunking a produced chunk -/

/-- When every remaining sentence still fits, the accumulation loop never
flushes: it just concatenates the sentences onto the running chunk. -/
lemma greedy_fold (m : ℕ) (ss : List Str) :
    ∀ (chunks : List Str) (cur : Str),
      (cur ++ ss.flatten).length ≤ m →
      ss.foldl (sentenceStep m) (chunks, cur) = (chunks, cur ++ ss.flatten) := by
  induction ss with
  | nil =>
    intro chunks cur _
    simp
  | cons s rest ih =>
    intro chunks cur h
    have hfit : (cur ++ s).length ≤ m := by
      simp only [List.flatten_cons, List.length_append] at h ⊢
      omega
    have hstep : sentenceStep m (chunks, cur) s = (chunks, cur ++ s) := by
      simp only [sentenceStep]
      rw [if_pos hfit]
    have harg : ((cur ++ s) ++ rest.flatten).length ≤ m := by
      simp only [List.flatten_cons, List.length_append] at h ⊢
      omega
    rw [List.foldl_cons, hstep, ih chunks (cur ++ s) harg, List.flatten_cons,
      List.append_assoc]

/-- The concatenated sentences of a text are no longer than the text (the
matcher only drops characters). -/
lemma flatten_sentencesOf_le (c : Str) :
    (sentencesOf c).flatten.length ≤ c.length := by
  unfold sentencesOf
  rcases h : splitSentences c with _ | ⟨s1, ss⟩
  · simp
  · obtain ⟨lead, trail, hdec, _, _, _⟩ := splitSentences_decomp c
    rw [h] at hdec
    rw [hdec]
    simp [List.length_append]
    omega

/-- A nonempty text has nonempty concatenated sentences: either the
fallback keeps the whole text, or the first match is nonempty. -/
lemma flatten_sentencesOf_ne_nil (c : Str) (hc : c ≠ []) :
    (sentencesOf c).flatten ≠ [] := by
  unfold sentencesOf
  rcases h : splitSentences c with _ | ⟨s1, ss⟩
  · simpa using hc
  · obtain ⟨lead, trail, hdec, _, _, hsh⟩ := splitSentences_decomp c
    have hs1 : SentenceShape s1 := by
      apply hsh
      rw [h]
      exact List.mem_cons_self s1 ss
    obtain ⟨r, t, hrt, hrne, _, _, _⟩ := hs1
    intro habs
    rw [List.flatten_cons] at habs
    have : s1 = [] := (List.append_eq_nil.mp habs).1
    rw [hrt] at this
    exact hrne (List.append_eq_nil.mp this).1

/-- Re-chunking a nonempty text whose sentences fit the limit together
yields one chunk: the trimmed concatenation of its sentences. -/
lemma chunkText_of_fits (c : Str) (m : ℕ) (hne : c ≠ [])
    (hlen : (sentencesOf c).flatten.length ≤ m) :
    chunkText c m = [trimL (sentencesOf c).flatten] := by
  have hdef : chunkText c m =
      ((sentencesOf c).foldl (sentenceStep m) ([], [])).1 ++
        (if ((sentencesOf c).foldl (sentenceStep m) ([], [])).2 ≠ [] then
          [trimL ((sentencesOf c).foldl (sentenceStep m) ([], [])).2] else []) := rfl
  rw [hdef, greedy_fold m (sentencesOf c) [] [] (by simpa using hlen)]
  simp [flatten_sentencesOf_ne_nil c hne]

/-- Re-chunking a single oversized word: the word loop receives the word
whole and keeps it intact, so the result is the trimmed word alone. -/
lemma chunkText_oversized (c : Str) (m : ℕ) (hsp : ' ' ∉ c)
    (hsh : NTsh c ∨ TNsh c) (hlen : m < c.length) :
    chunkText c m = [trimL c] := by
  have hcne : c ≠ [] := by
    intro h
    rw [h] at hlen
    simp at hlen
  have hsent : sentencesOf c = [c] := sentencesOf_of_wordShape c hsh
  have hdef : chunkText c m =
      ((sentencesOf c).foldl (sentenceStep m) ([], [])).1 ++
        (if ((sentencesOf c).foldl (sentenceStep m) ([], [])).2 ≠ [] then
          [trimL ((sentencesOf c).foldl (sentenceStep m) ([], [])).2] else []) := rfl
  have h1 : ¬ ((([] : Str) ++ c).length ≤ m) := by
    simpa using not_le.mpr hlen
  have h2 : ¬ ((([] : Str) ++ ' ' :: c).length ≤ m) := by
    simp only [List.nil_append, List.length_cons]
    omega
  have hstep : sentenceStep m (([] : List Str), ([] : Str)) c = ([], c) := by
    simp only [sentenceStep]
    rw [if_neg h1, if_pos hlen, splitOnSpace_of_no_space c hsp]
    simp only [List.foldl_cons, List.foldl_nil, wordStep]
    rw [if_neg h2]
    simp [hcne]
  rw [hdef, hsent]
  simp only [List.foldl_cons, List.foldl_nil]
  rw [hstep]
  simp [hcne]

/-- C9 counterexample: chunking is not idempotent.  The chunk `".. aa."`
is produced by `chunkText` on `"bbbbbb. .. aa."` with limit 8, but
re-chunking it with the same limit returns `["aa."]`, not the chunk
unchanged: the sentence matcher drops its leading terminator run and the
flush trims the leading space. -/
theorem rechunk_counterexample :
    ".. aa.".toList ∈ chunkText "bbbbbb. .. aa.".toList 8 ∧
    chunkText ".. aa.".toList 8 = ["aa.".toList] ∧
    chunkText ".. aa.".toList 8 ≠ [".. aa.".toList] := by decide

/-- C9 (amended): re-chunking one of `chunkText`'s own chunks with the
same limit yields at most one chunk, but not always the chunk unchanged:
an empty chunk (producible from whitespace-only text) re-chunks to no
chunks at all, and a nonempty chunk `c` re-chunks to the single chunk
`trimL (sentencesOf c).flatten` — `c` with whatever the sentence matcher
drops (a leading terminator run and unterminated trailing text) removed
and the remainder trimmed — which is `c` itself exactly when the matcher
covers `c`. -/
theorem rechunk_behavior (text : Str) (m : ℕ) (c : Str)
    (hc : c ∈ chunkText text m) :
    (c = [] → chunkText c m = []) ∧
    (c ≠ [] → chunkText c m = [trimL (sentencesOf c).flatten]) ∧
    (c ≠ [] → (sentencesOf c).flatten = c → chunkText c m = [c]) := by
  obtain ⟨htrim, hgood⟩ := chunkText_good text m c hc
  have hmain : c ≠ [] → chunkText c m = [trimL (sentencesOf c).flatten] := by
    intro hne
    by_cases hlen : c.length ≤ m
    · exact chunkText_of_fits c m hne (le_trans (flatten_sentencesOf_le c) hlen)
    · have hwl : WordLike c := hgood.resolve_left hlen
      rw [chunkText_oversized c m hwl.1 hwl.2 (not_le.mp hlen),
        sentencesOf_of_wordShape c hwl.2]
      simp
  refine ⟨?_, hmain, ?_⟩
  · intro he
    rw [he]
    exact chunkText_nil m
  · intro hne hflat
    rw [hmain hne, hflat, htrim]

/-- Witness for the amended C9 at a concrete produced chunk: the chunk
`".. aa."` of `chunkText "bbbbbb. .. aa." 8` re-chunks to the single
trimmed sentence concatenation. -/
theorem rechunk_behavior_witness :
    ".. aa.".toList ∈ chunkText "bbbbbb. .. aa.".toList 8 ∧
    chunkText ".. aa.".toList 8 = [trimL (sentencesOf ".. aa.".toList).flatten] :=
  ⟨by decide,
    (rechunk_behavior "bbbbbb. .. aa.".toList 8 ".. aa.".toList (by decide)).2.1
      (by decide)⟩
